import Mathlib

/-!
Verification of the fingerprint-generator inference engine.

This file gives a shallow embedding of the probabilistic-inference core of
the repository (src/fpgen/bayesian_network.py, src/fpgen/trace.py,
src/fpgen/utils.py, src/fpgen/unpacker.py) and proves or refutes the frozen
claims about it.

Modelling conventions:
* Python floats are modelled as exact rationals; the claims under study are
  about algorithmic structure (which values flow where), not rounding.
* Python dicts are association lists that keep insertion order; `alookup`
  is `d[k]` / `d.get(k)` (`none` = missing key, which the source surfaces
  as `KeyError`).  Python sets are lists used only through membership.
* Fallible Python code (KeyError, StopIteration, ZeroDivisionError,
  raised exception classes) is modelled with `Option` / `Except Err`.
* JSON parsing and the on-disk value store are declared external
  collaborators by the specification (spec section 1); they appear as
  function parameters (`ValueCtx`, `read`, `decode`).
-/

namespace FPGen

abbrev Token := String

abbrev Prob := ℚ

/-- Python `str.casefold` (the node names and values of this model are
    ASCII, where casefold is lowercasing). -/
def casefold (s : String) : String := String.mk (s.data.map Char.toLower)

/-- Equality of `Except` results is decidable componentwise. -/
instance {ε α : Type} [DecidableEq ε] [DecidableEq α] :
    DecidableEq (Except ε α) := fun a b =>
  match a, b with
  | .ok x, .ok y =>
    if h : x = y then .isTrue (by rw [h]) else .isFalse (by simp [h])
  | .error x, .error y =>
    if h : x = y then .isTrue (by rw [h]) else .isFalse (by simp [h])
  | .ok _, .error _ => .isFalse (by simp)
  | .error _, .ok _ => .isFalse (by simp)

/-- Python `d[k]` / `d.get(k)` on an insertion-ordered dict
    (keys are unique, so first match is the entry). -/
def alookup {α : Type} : List (String × α) → String → Option α
  | [], _ => none
  | p :: rest, k => if p.1 == k then some p.2 else alookup rest k

/-- Python `d[k] = v`: overwrite in place if the key exists, else append. -/
def dinsert {α : Type} (l : List (String × α)) (k : String) (v : α) :
    List (String × α) :=
  if (alookup l k).isSome then
    l.map (fun p => if p.1 == k then (k, v) else p)
  else l ++ [(k, v)]

/-- Python set `s.add(x)` represented on a duplicate-free list. -/
def add_tok (acc : List Token) (t : Token) : List Token :=
  if acc.contains t then acc else acc ++ [t]

/-- `needle` occurs as a contiguous run of `haystack` starting at its head. -/
def charsStart : List Char → List Char → Bool
  | [], _ => true
  | _ :: _, [] => false
  | a :: as, b :: bs => a == b && charsStart as bs

/-- `needle` occurs somewhere inside `haystack`
    (Python `needle in haystack` on strings). -/
def charsContain : List Char → List Char → Bool
  | needle, [] => needle.isEmpty
  | needle, l@(_ :: rest) => charsStart needle l || charsContain needle rest

def strContains (haystack needle : String) : Bool :=
  charsContain needle.toList haystack.toList

/-! ## Conditional probability tables (src/fpgen/bayesian_network.py)

`conditionalProbabilities` is a nested dict: with k parents,
`cpt[p1][p2]...[pk]` is a token-to-probability map. -/

inductive Cpt where
  | probs : List (Token × Prob) → Cpt
  | branch : List (Token × Cpt) → Cpt

/-- Python `probabilities.get(parent_value, {})`: descend one level, an
    absent key gives the empty dict.  (Descending "into" a leaf level is
    malformed data in the source; it is modelled as the empty dict.) -/
def Cpt.child : Cpt → Token → Cpt
  | .branch kvs, v => ((kvs.find? (fun p => p.1 == v)).map (·.2)).getD (.probs [])
  | .probs _, _ => .probs []

/-- Token-probability pairs of a fully descended table
    (Python callers iterate `.items()`). -/
def Cpt.items : Cpt → List (Token × Prob)
  | .probs m => m
  | .branch _ => []

/-- Data-model invariant 2 of the spec: every token appearing as a leaf key
    of the CPT belongs to the given possible-value list. -/
inductive CptKeysOK (pvs : List Token) : Cpt → Prop where
  | probs : ∀ m, (∀ vp ∈ m, vp.1 ∈ pvs) → CptKeysOK pvs (.probs m)
  | branch : ∀ kvs, (∀ kc ∈ kvs, CptKeysOK pvs kc.2) → CptKeysOK pvs (.branch kvs)

/-! ## Nodes -/

structure BayesianNode where
  name : String
  parent_names : List String
  possible_values : List Token
  probabilities : Cpt

/-- Recursion of `BayesianNode.get_probabilities_given_known_values`
    (bayesian_network.py lines 43-53): walk the parent names in declared
    order; `parent_values[parent_name]` raises KeyError when the parent name
    is absent (modelled as `none`); `probabilities.get(parent_value, {})`
    descends with the empty dict as default. -/
def gpgkv_go (parent_values : List (String × Token)) :
    List String → Cpt → Option (List (Token × Prob))
  | [], probsAcc => some probsAcc.items
  | p :: rest, probsAcc =>
    match alookup parent_values p with
    | none => none
    | some v => gpgkv_go parent_values rest (probsAcc.child v)

def BayesianNode.get_probabilities_given_known_values (node : BayesianNode)
    (parent_values : List (String × Token)) : Option (List (Token × Prob)) :=
  gpgkv_go parent_values node.parent_names node.probabilities

/-! ## The network -/

structure BayesianNetwork where
  nodes_in_sampling_order : List BayesianNode

/-- Case-insensitive node lookup (`CaseInsensitiveDict`, structs.py):
    keys are compared casefolded; node names are unique under casefolding
    (data-model invariant 4), so first match is the node. -/
def BayesianNetwork.nodes_by_name (net : BayesianNetwork) (name : String) :
    Option BayesianNode :=
  net.nodes_in_sampling_order.find? (fun n => casefold n.name == casefold name)

def BayesianNetwork.hasNode (net : BayesianNetwork) (name : String) : Bool :=
  (net.nodes_by_name name).isSome

/-- Fueled transitive parent closure, mirroring the memoized recursion of
    `get_all_ancestors` (bayesian_network.py lines 202-221); the loader
    precomputes it for every node, and the recursion terminates because the
    graph is a DAG whose parent chains are bounded by the node count.
    A name outside the network contributes nothing (the source would have
    failed at load time). -/
def BayesianNetwork.ancestorsAux (net : BayesianNetwork) :
    ℕ → String → List String
  | 0, _ => []
  | fuel + 1, name =>
    match net.nodes_by_name name with
    | none => []
    | some node =>
      (node.parent_names.map (fun p => p :: net.ancestorsAux fuel p)).flatten

def BayesianNetwork.ancestors (net : BayesianNetwork) (name : String) :
    List String :=
  net.ancestorsAux net.nodes_in_sampling_order.length name

/-! ## Evidence

`BayesianNetwork.trace` accepts `Mapping[str, Union[str, Set[str]]]`:
`validate_evidence` passes plain strings (and Python `value in allowed`
is then a substring test), the generators pass sets. -/

inductive EvVal where
  | str : String → EvVal
  | set : List Token → EvVal

/-- Python `value in allowed_values` (trace, line 278). -/
def EvVal.holds : EvVal → Token → Bool
  | .str s, v => strContains s v
  | .set l, v => l.contains v

/-- `allowed_values is None or value in allowed_values` (trace, line 278). -/
def allowedOK (allowed : Option EvVal) (v : Token) : Bool :=
  match allowed with
  | none => true
  | some av => av.holds v

abbrev Evidence := List (String × EvVal)

/-- Evidence as built by the compiler: node name to set of allowed tokens. -/
abbrev EvSets := List (String × List Token)

def evOf (e : EvSets) : Evidence := e.map (fun kv => (kv.1, EvVal.set kv.2))

/-! ## Beam-search inference: `BayesianNetwork.trace`
    (bayesian_network.py lines 223-305) -/

abbrev Assignment := List (String × Token)

abbrev Beam := List (Assignment × Prob)

def BEAM_WIDTH : ℕ := 1000

/-- `heapq.nlargest(n, xs, key=prob)`, documented in the Python library as
    `sorted(xs, key=key, reverse=True)[:n]`. -/
def nlargest (n : ℕ) (l : Beam) : Beam :=
  (l.insertionSort (fun x y => y.2 ≤ x.2)).take n

/-- Lines 284-290: prune only when the new beam exceeds `BEAM_WIDTH`. -/
def pruneBeam (l : Beam) : Beam :=
  if BEAM_WIDTH < l.length then nlargest BEAM_WIDTH l else l

/-- Lines 269-274: conditional probabilities for the node given the partial
    assignment, refilled with a uniform distribution when the table is
    missing and the node has possible values.  `none` models the KeyError
    raised when a parent of the node is absent from the assignment. -/
def cpt_with_fallback (node : BayesianNode) (assignment : Assignment) :
    Option (List (Token × Prob)) :=
  (node.get_probabilities_given_known_values assignment).map (fun cpt =>
    if cpt.isEmpty && !node.possible_values.isEmpty then
      node.possible_values.map
        (fun v => (v, 1 / (node.possible_values.length : ℚ)))
    else cpt)

/-- Lines 277-282: expand one beam entry over the node's CPT, keeping values
    allowed by the evidence with positive probability. -/
def expandEntry (allowed : Option EvVal) (node : BayesianNode)
    (a : Assignment) (p : Prob) : Option Beam :=
  match cpt_with_fallback node a with
  | none => none
  | some cpt =>
    some ((cpt.filter (fun vq =>
        allowedOK allowed vq.1 && decide (0 < vq.2))).map
      (fun vq => (dinsert a node.name vq.1, p * vq.2)))

/-- Lines 250-282: one node step of the beam loop (before pruning). -/
def stepNode (evidence : Evidence) (node : BayesianNode) (beam : Beam) :
    Option Beam :=
  beam.foldlM (fun acc ap =>
    (expandEntry (alookup evidence node.name) node ap.1 ap.2).map
      (fun ex => acc ++ ex)) []

/-- Lines 249-292: iterate the nodes in order; an empty new beam returns the
    empty distribution immediately (`return {}`), which the final
    extraction then renders as the empty dict. -/
def runBeam (evidence : Evidence) :
    List BayesianNode → Beam → Option Beam
  | [], beam => some beam
  | node :: rest, beam =>
    match stepNode evidence node beam with
    | none => none
    | some nb =>
      if nb.isEmpty then some [] else runBeam evidence rest (pruneBeam nb)

/-- Lines 230-237: the relevant-node set: ancestors of the target plus the
    target, plus, for each evidence key that names a node, that key and its
    ancestors.  Only membership in this collection is ever used. -/
def BayesianNetwork.relevantNodes (net : BayesianNetwork) (target : String)
    (evidence : Evidence) : List String :=
  evidence.foldl
    (fun acc kv =>
      if net.hasNode kv.1 then acc ++ kv.1 :: net.ancestors kv.1 else acc)
    (target :: net.ancestors target)

/-- Lines 239-242: relevant nodes ordered by the network's sampling order. -/
def BayesianNetwork.trace_ordered_nodes (net : BayesianNetwork)
    (target : String) (evidence : Evidence) : List BayesianNode :=
  net.nodes_in_sampling_order.filter
    (fun nd => (net.relevantNodes target evidence).contains nd.name)

/-- Lines 297-301: `target_dist[value] = target_dist.get(value, 0) + prob`. -/
def addWeight (l : List (Token × Prob)) (v : Token) (p : Prob) :
    List (Token × Prob) :=
  if (alookup l v).isSome then
    l.map (fun kv => if kv.1 == v then (kv.1, kv.2 + p) else kv)
  else l ++ [(v, p)]

/-- Lines 294-301: collect the target marginal from the final beam. -/
def collectTarget (target : String) (beam : Beam) : List (Token × Prob) :=
  beam.foldl (fun acc ap =>
    match alookup ap.1 target with
    | some v => addWeight acc v ap.2
    | none => acc) []

/-- Lines 294-305: normalize the collected marginal when it has positive
    total mass, else return the empty dict. -/
def traceFinish (tname : String) (fb : Beam) : List (Token × Prob) :=
  if 0 < ((collectTarget tname fb).map (·.2)).sum then
    (collectTarget tname fb).map
      (fun vp => (vp.1, vp.2 / ((collectTarget tname fb).map (·.2)).sum))
  else []

/-- `BayesianNetwork.trace` (lines 223-305).  `none` models the KeyError
    raised on an unknown target (line 229) or on a missing parent during
    expansion (lines 260-269). -/
def BayesianNetwork.trace (net : BayesianNetwork) (target : String)
    (evidence : Evidence) : Option (List (Token × Prob)) :=
  match net.nodes_by_name target with
  | none => none
  | some tnode =>
    match runBeam evidence
        (net.trace_ordered_nodes tnode.name evidence) [([], 1)] with
    | none => none
    | some finalBeam => some (traceFinish tnode.name finalBeam)

/-! ### The per-call CPT cache

The source declares `cpt_cache` (line 247), consults it (lines 265-267), but
never stores into it, so the lookup can never hit.  The following variant
threads the cache exactly as the source does; it is proved equal to
`BayesianNetwork.trace` below, which settles that no mutable state
influences the result. -/

/-- Line 260-263: `tuple(assignment[parent] for parent in node.parent_names)`
    with the caught KeyError yielding the empty tuple. -/
def tuple_of (node : BayesianNode) (a : Assignment) : List Token :=
  (node.parent_names.mapM (alookup a)).getD []

abbrev CptCache := List ((String × List Token) × List (Token × Prob))

def cacheLookup (c : CptCache) (k : String × List Token) :
    Option (List (Token × Prob)) :=
  (c.find? (fun p => decide (p.1 = k))).map (·.2)

/-- Lines 256-282 with the cache consulted as in the source (and, as in the
    source, never extended). -/
def stepNodeCached (evidence : Evidence) (node : BayesianNode) (beam : Beam)
    (cache : CptCache) : Option (Beam × CptCache) :=
  beam.foldlM (fun st ap =>
    let key := (node.name, tuple_of node ap.1)
    let cptO :=
      match cacheLookup st.2 key with
      | some cpt => some cpt
      | none => cpt_with_fallback node ap.1
    match cptO with
    | none => none
    | some cpt =>
      some (st.1 ++ (cpt.filter (fun vq =>
          allowedOK (alookup evidence node.name) vq.1 &&
            decide (0 < vq.2))).map
        (fun vq => (dinsert ap.1 node.name vq.1, ap.2 * vq.2)), st.2))
    ([], cache)

def runBeamCached (evidence : Evidence) :
    List BayesianNode → Beam → CptCache → Option (Beam × CptCache)
  | [], beam, cache => some (beam, cache)
  | node :: rest, beam, cache =>
    match stepNodeCached evidence node beam cache with
    | none => none
    | some (nb, cache') =>
      if nb.isEmpty then some ([], cache')
      else runBeamCached evidence rest (pruneBeam nb) cache'

/-- `BayesianNetwork.trace` with the dead per-call cache threaded
    explicitly; the cache starts empty (line 247). -/
def BayesianNetwork.trace_with_cache (net : BayesianNetwork) (target : String)
    (evidence : Evidence) : Option (List (Token × Prob)) :=
  match net.nodes_by_name target with
  | none => none
  | some tnode =>
    match runBeamCached evidence
        (net.trace_ordered_nodes tnode.name evidence) [([], 1)] [] with
    | none => none
    | some (finalBeam, _) => some (traceFinish tnode.name finalBeam)

/-! ## Sampling (bayesian_network.py lines 307-318)

`random.random()` draws are threaded explicitly as a stream of rationals in
`[0,1)` (the anchors); one anchor is consumed per sampled node. -/

/-- The accumulation loop: return the first value whose cumulative
    probability strictly exceeds the anchor. -/
def sampleWalk (anchor : Prob) : List (Token × Prob) → Prob → Option Token
  | [], _ => none
  | (v, p) :: rest, cum =>
    if anchor < cum + p then some v else sampleWalk anchor rest (cum + p)

/-- `sample_value_from_distribution`: walk the distribution; if the loop
    finishes without returning, fall back to `next(iter(keys))`, the FIRST
    key of the dict (`none` models the StopIteration raised on an empty
    distribution). -/
def sample_value_from_distribution (dist : List (Token × Prob))
    (anchor : Prob) : Option Token :=
  match sampleWalk anchor dist 0 with
  | some v => some v
  | none => dist.head?.map (·.1)

/-! ## Exceptions (src/fpgen/exceptions.py)

`Err` carries the node name cited by the exception message; the three
`restrictive*` constructors are the `RestrictiveConstraints` class. -/

inductive Err where
  | keyError : Err
  | invalidNode : Err
  | invalidConstraints : Err
  /-- validate_evidence line 197: "{node}=... is impossible with ...". -/
  | restrictiveImpossible : String → Err
  /-- generate_certain_nodes line 143: "No valid values for {target}". -/
  | restrictiveNoValid : String → Err
  /-- generate_certain_nodes line 157: "Empty distribution for {target}". -/
  | restrictiveEmptyDist : String → Err
deriving DecidableEq

def Err.isRestrictive : Err → Bool
  | .restrictiveImpossible _ => true
  | .restrictiveNoValid _ => true
  | .restrictiveEmptyDist _ => true
  | _ => false

/-! ## Consistent sampling (bayesian_network.py lines 76-161) -/

/-- Lines 90-103 of `generate_consistent_sample`: the local distribution of
    a node under explicit evidence — trace without the node's own entry,
    filter to the allowed values and renormalize; with no mass, fall back
    to a uniform distribution over the allowed values (`none` models the
    ZeroDivisionError when the allowed set is empty, and the KeyError
    propagating out of `trace`). -/
def gcsConstrainedDist (net : BayesianNetwork) (node : BayesianNode)
    (cur : EvSets) (allowed : List Token) : Option (List (Token × Prob)) :=
  match net.trace node.name
      (evOf (cur.filter (fun kv => !(kv.1 == node.name)))) with
  | none => none
  | some dist =>
    if (dist.filter (fun vp => allowed.contains vp.1)).isEmpty ||
        decide (((dist.filter (fun vp => allowed.contains vp.1)).map
          (·.2)).sum ≤ 0) then
      if allowed.isEmpty then none
      else some (allowed.map (fun v2 => (v2, 1 / (allowed.length : ℚ))))
    else
      some ((dist.filter (fun vp => allowed.contains vp.1)).map
        (fun vp => (vp.1, vp.2 /
          ((dist.filter (fun vp => allowed.contains vp.1)).map (·.2)).sum)))

/-- Loop body of `generate_consistent_sample` (lines 86-111), iterating all
    network nodes in sampling order.  `none` models the uncaught exceptions
    of the source: KeyError from `trace`, ZeroDivisionError when the
    evidence set is empty, StopIteration when sampling an empty dict. -/
def gcsGo (net : BayesianNetwork) (anchors : ℕ → Prob) :
    List BayesianNode → EvSets → List (String × Token) → ℕ →
    Option (List (String × Token))
  | [], _, result, _ => some result
  | node :: rest, cur, result, k =>
    match alookup cur node.name with
    | some allowed =>
      match gcsConstrainedDist net node cur allowed with
      | none => none
      | some fdist =>
        match sample_value_from_distribution fdist (anchors k) with
        | none => none
        | some sampled =>
          gcsGo net anchors rest (dinsert cur node.name [sampled])
            (dinsert result node.name sampled) (k + 1)
    | none =>
      -- lines 104-107: unconstrained node, trace with all current evidence
      match net.trace node.name (evOf cur) with
      | none => none
      | some dist =>
        match sample_value_from_distribution dist (anchors k) with
        | none => none
        | some sampled =>
          gcsGo net anchors rest (dinsert cur node.name [sampled])
            (dinsert result node.name sampled) (k + 1)

/-- `generate_consistent_sample` (lines 76-113). -/
def BayesianNetwork.generate_consistent_sample (net : BayesianNetwork)
    (evidence : EvSets) (anchors : ℕ → Prob) :
    Option (List (String × Token)) :=
  gcsGo net anchors net.nodes_in_sampling_order evidence [] 0

/-- Lines 134-151 of `generate_certain_nodes`: restrict the traced
    distribution of a constrained target to its allowed values and
    renormalize, raising `RestrictiveConstraints` ("No valid values for
    {target}") when no mass remains; unconstrained targets keep the traced
    distribution. -/
def gcnDist (t : String) (dist : List (Token × Prob))
    (allowedO : Option (List Token)) : Except Err (List (Token × Prob)) :=
  match allowedO with
  | some allowed =>
    if (dist.filter (fun vp => allowed.contains vp.1)).isEmpty ||
        decide (((dist.filter (fun vp => allowed.contains vp.1)).map
          (·.2)).sum ≤ 0) then
      .error (.restrictiveNoValid t)
    else
      .ok ((dist.filter (fun vp => allowed.contains vp.1)).map
        (fun vp => (vp.1, vp.2 /
          ((dist.filter (fun vp => allowed.contains vp.1)).map (·.2)).sum)))
  | none => .ok dist

/-- Loop body of `generate_certain_nodes` (lines 127-161). -/
def gcnGo (net : BayesianNetwork) (evidence : EvSets) (anchors : ℕ → Prob) :
    List String → List (String × Token) → ℕ →
    Except Err (List (String × Token))
  | [], result, _ => .ok result
  | t :: rest, result, k =>
    match net.trace t (evOf evidence) with
    | none => .error .keyError
    | some dist =>
      match gcnDist t dist (alookup evidence t) with
      | .error e => .error e
      | .ok d =>
        -- lines 153-159: sample if non-empty, else RestrictiveConstraints
        if d.isEmpty then .error (.restrictiveEmptyDist t)
        else
          match sample_value_from_distribution d (anchors k) with
          | none => .error .keyError   -- unreachable: d is non-empty
          | some v => gcnGo net evidence anchors rest (dinsert result t v) (k + 1)

/-- `generate_certain_nodes` (lines 115-161) for an explicit target list
    (a `None` target list delegates to `generate_consistent_sample`). -/
def BayesianNetwork.generate_certain_nodes (net : BayesianNetwork)
    (evidence : EvSets) (targets : List String) (anchors : ℕ → Prob) :
    Except Err (List (String × Token)) :=
  gcnGo net evidence anchors targets [] 0

/-! ## Evidence validation (bayesian_network.py lines 163-200) -/

/-- Lines 174-178: the single-valued sibling constraints, passed to `trace`
    as PLAIN STRINGS (`next(iter(v))`), so that membership during the beam
    expansion is Python's substring test. -/
def fixed_constraints (ev : EvSets) (node_name : String) : Evidence :=
  ev.filterMap (fun kv =>
    match kv with
    | (k, [v]) => if k = node_name then none else some (k, EvVal.str v)
    | _ => none)

/-- Lines 173-200: check one constrained node against its fixed siblings. -/
def validate_one (net : BayesianNetwork) (ev : EvSets)
    (kv : String × List Token) : Except Err Unit :=
  let fixed := fixed_constraints ev kv.1
  if fixed.isEmpty then .ok ()
  else
    match net.trace kv.1 fixed with
    | none => .error .keyError
    | some dist =>
      if !dist.isEmpty &&
          kv.2.all (fun val => decide ((alookup dist val).getD 0 ≤ 0)) then
        .error (.restrictiveImpossible kv.1)
      else .ok ()

/-- `validate_evidence` (lines 163-200): skipped for at most one
    constraint; otherwise each entry is checked in insertion order and the
    first failure raises. -/
def BayesianNetwork.validate_evidence (net : BayesianNetwork) (ev : EvSets) :
    Except Err Unit :=
  if ev.length ≤ 1 then .ok ()
  else ev.foldlM (fun _ kv => validate_one net ev kv) ()

/-- The validation phase of `build_evidence` (utils.py lines 491-500):

    while True:
        try: NETWORK.validate_evidence(evidence)
        except RestrictiveConstraints as e:
            if strict: raise e
            evidence.pop(next(iter(evidence.keys())))
        break

    The `break` sits outside the `try` block, so after one pop the loop
    exits without re-validating. -/
def BayesianNetwork.build_evidence_validate (net : BayesianNetwork)
    (strict : Bool) (ev : EvSets) : Except Err EvSets :=
  match net.validate_evidence ev with
  | .ok _ => .ok ev
  | .error e =>
    if e.isRestrictive then
      if strict then .error e else .ok (ev.drop 1)
    else .error e

/-! ## Module-level beam search (src/fpgen/trace.py)

The public `trace` entry point delegates to `_beam_search_inference`, which
computes its own relevant-node set via `_get_ancestors_and_target` —
WITHOUT adding evidence nodes. -/

/-- Worklist recursion of `_get_ancestors_and_target` (trace.py lines
    334-355): `acc` is the `ancestors` set (insertion order), the second
    list the queue.  Fuel bounds the loop (each node is enqueued at most
    once); an unknown name would raise KeyError in the source and is
    modelled by stopping. -/
def gatAux (net : BayesianNetwork) :
    ℕ → List String → List String → List String
  | 0, acc, _ => acc
  | _ + 1, acc, [] => acc
  | fuel + 1, acc, current :: rest =>
    match net.nodes_by_name current with
    | none => acc
    | some node =>
      let st := node.parent_names.foldl
        (fun (st : List String × List String) p =>
          if st.1.contains p then st else (st.1 ++ [p], st.2 ++ [p]))
        (acc, rest)
      gatAux net fuel st.1 st.2

def get_ancestors_and_target (net : BayesianNetwork) (target : String) :
    List String :=
  gatAux net (net.nodes_in_sampling_order.length + 1) [target] [target]

/-- trace.py lines 288-292: the nodes `_beam_search_inference` processes —
    target and its ancestors only; the whitelisted evidence plays no part. -/
def bsiOrderedNodes (net : BayesianNetwork) (target : String) :
    List BayesianNode :=
  net.nodes_in_sampling_order.filter
    (fun nd => (get_ancestors_and_target net target).contains nd.name)

/-- trace.py lines 301-311: expand the beam at one node.  The iteration is
    over the ALLOWED values (evidence entry or the node's possible values);
    values missing from the conditional table are skipped, non-positive
    products are skipped.  No uniform refill here. -/
def bsiStep (whitelisted : EvSets) (node : BayesianNode) (beam : Beam) :
    Option Beam :=
  beam.foldlM (fun acc ap =>
    match node.get_probabilities_given_known_values ap.1 with
    | none => none
    | some cond_probs =>
      some (acc ++
        ((alookup whitelisted node.name).getD node.possible_values).filterMap
          (fun v =>
            match alookup cond_probs v with
            | none => none
            | some q =>
              if decide (0 < ap.2 * q) then
                some (dinsert ap.1 node.name v, ap.2 * q)
              else none))) []

/-- trace.py lines 297-317: sort descending, truncate to the beam width,
    and on an empty beam log a warning and `return {}` immediately
    (`some none` is that early empty-dict return; `none` is KeyError). -/
def bsiRun (whitelisted : EvSets) (beam_width : ℕ) :
    List BayesianNode → Beam → Option (Option Beam)
  | [], beam => some (some beam)
  | node :: rest, beam =>
    match bsiStep whitelisted node beam with
    | none => none
    | some nb =>
      let pruned := (nb.insertionSort (fun x y => y.2 ≤ x.2)).take beam_width
      if pruned.isEmpty then some none
      else bsiRun whitelisted beam_width rest pruned

/-- `_beam_search_inference` (trace.py lines 272-331).  On a completed beam
    with zero total mass the source falls back to a uniform distribution
    over the target's allowed values — note that the Python `dict.get`
    default `NETWORK.nodes_by_name[target].possible_values` is evaluated
    unconditionally. -/
def beam_search_inference (net : BayesianNetwork) (target : String)
    (whitelisted : EvSets) (beam_width : ℕ) :
    Option (List (Token × Prob)) :=
  match bsiRun whitelisted beam_width (bsiOrderedNodes net target) [([], 1)] with
  | none => none
  | some none => some []
  | some (some finalBeam) =>
    let counts := collectTarget target finalBeam
    let total := (counts.map (·.2)).sum
    if 0 < total then some (counts.map (fun vp => (vp.1, vp.2 / total)))
    else
      match net.nodes_by_name target with
      | none => none
      | some nd =>
        let allowed := (alookup whitelisted target).getD nd.possible_values
        if allowed.isEmpty then none
        else some (allowed.map (fun v => (v, 1 / (allowed.length : ℚ))))

/-! ## Value store (src/fpgen/unpacker.py)

`VALUE_PAIRS` is the loaded `values.json` as a list of (offset, length)
pairs (the hex decoding of the offset is part of loading and done here);
`read offset length` abstracts the seek-and-read on the data file, and
`decode` abstracts `base85_to_int`.  Both batch and single lookup go
through the same `read`. -/

/-- `lookup_value` (unpacker.py lines 50-56): `none` is the IndexError on
    an out-of-range decoded index. -/
def lookup_value (pairs : List (ℕ × ℕ)) (read : ℕ → ℕ → String)
    (decode : Token → ℕ) (tok : Token) : Option String :=
  (pairs.get? (decode tok)).map (fun ol => read ol.1 ol.2)

/-- Tuple order of `sorted((base85_to_int(idx), n) for ...)`: lexicographic
    on (decoded integer, original position). -/
def pairLE (x y : ℕ × ℕ) : Prop :=
  x.1 < y.1 ∨ (x.1 = y.1 ∧ x.2 ≤ y.2)

instance : DecidableRel pairLE := fun x y => by
  unfold pairLE; infer_instance

/-- `lookup_value_list` (unpacker.py lines 59-79): decode all tokens, sort
    by (integer, position), read the data file in that order writing each
    result at its caller position, return the positions in order. -/
def lookup_value_list (pairs : List (ℕ × ℕ)) (read : ℕ → ℕ → String)
    (decode : Token → ℕ) (index_list : List Token) : Option (List String) :=
  match ((index_list.enum.map
        (fun nt => (decode nt.2, nt.1))).insertionSort pairLE).foldlM
      (fun (m : ℕ → Option String) inp =>
        (pairs.get? inp.1).map
          (fun ol => Function.update m inp.2 (some (read ol.1 ol.2))))
      (fun _ => none) with
  | none => none
  | some value_map => (List.range index_list.length).mapM value_map

/-! ## The evidence compiler (src/fpgen/utils.py lines 379-500)

JSON encoding/decoding (orjson) and the value store are the external
collaborators of spec section 1; they are abstracted by `ValueCtx`:
`decode` is `lookup_value` composed with the store (token to the JSON text
of the value), `atPath` is `orjson.loads` followed by `_at_path` (the
decoded value found at a nested key path, `none` for NodePathError).
Scalars and collection elements of user conditions carry their
`orjson.dumps` encodings directly. -/

structure ValueCtx where
  decode : Token → String
  atPath : String → List String → Option String

/-- User condition values before flattening (`_flatten_conditions` input):
    nested mappings, JSON scalars, sets/tuples of scalars, or predicate
    functions over decoded values. -/
inductive UserVal where
  | dict : List (String × UserVal) → UserVal
  | scalar : String → UserVal
  | coll : List String → UserVal
  | pred : (String → Bool) → UserVal

/-- Flattened condition values: a single JSON-encoded string, a tuple of
    JSON-encoded strings, or a preserved callable. -/
inductive FlatVal where
  | one : String → FlatVal
  | many : List String → FlatVal
  | pf : (String → Bool) → FlatVal

/-- A candidate inside `_tupilize(value)` (utils.py lines 367-371, 429). -/
inductive Cand where
  | str : String → Cand
  | fn : (String → Bool) → Cand

def FlatVal.tupilize : FlatVal → List Cand
  | .one s => [.str s]
  | .many l => l.map .str
  | .pf f => [.fn f]

/-- `_flatten_conditions` (utils.py lines 379-402) with `casefold=True`:
    join keys with dots, casefold them, convert sets/tuples to tuples of
    encoded strings, keep callables.  Fuel bounds the nesting depth. -/
def flatten_conditions :
    ℕ → String → List (String × UserVal) → List (String × FlatVal)
  | 0, _, _ => []
  | fuel + 1, parent_key, items =>
    (items.map (fun kv =>
      let new_key := if parent_key = "" then kv.1 else parent_key ++ "." ++ kv.1
      match kv.2 with
      | .dict sub => flatten_conditions fuel new_key sub
      | .scalar s => [(casefold new_key, FlatVal.one s)]
      | .coll l => [(casefold new_key, FlatVal.many l)]
      | .pred f => [(casefold new_key, FlatVal.pf f)])).flatten

/-- `_lookup_possibilities` (utils.py lines 186-200) with `casefold=True`:
    the node's possible values decoded through the store, casefolded,
    paired with their tokens. -/
def lookup_possibilities (net : BayesianNetwork) (ctx : ValueCtx)
    (name : String) : Option (List (String × Token)) :=
  (net.nodes_by_name name).map
    (fun nd => nd.possible_values.map (fun tok => (casefold (ctx.decode tok), tok)))

/-- Python dict built by comprehension: on duplicate keys the LAST value
    wins. -/
def pvGet (pv : List (String × Token)) (k : String) : Option Token :=
  (pv.reverse.find? (fun p => p.1 == k)).map (·.2)

/-- Strip off the last dot-separated segment (`key.rsplit('.', 1)`),
    `none` when the key has no dot left. -/
def rsplit1 (s : String) : Option (String × String) :=
  let parts := s.splitOn "."
  match parts with
  | [] => none
  | [_] => none
  | _ => some (String.intercalate "." parts.dropLast, parts.getLastD "")

/-- `_lookup_root_possibilities` (utils.py lines 146-183): repeatedly strip
    trailing segments until a node name matches; the stripped segments,
    restored to original order, become the nested path.  Fuel bounds the
    loop by the number of segments; `none` models the InvalidNode raise. -/
def lookup_root_possibilities (net : BayesianNetwork) (ctx : ValueCtx) :
    ℕ → String → List String →
    Option (String × List (String × Token) × List String)
  | 0, _, _ => none
  | fuel + 1, key, nested =>
    match rsplit1 key with
    | none => none
    | some (key', sliced) =>
      let nested' := nested ++ [sliced]
      match lookup_possibilities net ctx key' with
      | some pv => some (key', pv, nested'.reverse)
      | none => lookup_root_possibilities net ctx fuel key' nested'

/-- One candidate of a NESTED constraint (utils.py lines 438-466): admit
    every possible value whose decoded JSON holds the constrained value at
    the nested path; raise InvalidConstraints when the cumulative set is
    still empty afterwards. -/
def processNestedCand (ctx : ValueCtx) (possible_values : List (String × Token))
    (nested_keys : List String) (cand : Cand) (acc : List Token) :
    Except Err (List Token) :=
  let matchv : String → Bool :=
    match cand with
    | .str s => fun tv => tv == casefold s
    | .fn f => f
  let acc' := possible_values.foldl (fun acc2 pvkv =>
    match ctx.atPath pvkv.1 nested_keys with
    | none => acc2
    | some tv => if matchv tv then add_tok acc2 pvkv.2 else acc2) acc
  if acc'.isEmpty then .error .invalidConstraints else .ok acc'

/-- One candidate of a DIRECT constraint (utils.py lines 468-489): callables
    admit every satisfying possible value (raising when none matches),
    plain values are looked up casefolded in the possible-value map. -/
def processDirectCand (possible_values : List (String × Token)) (cand : Cand)
    (acc : List Token) : Except Err (List Token) :=
  match cand with
  | .fn f =>
    if possible_values.any (fun p => f p.1) then
      .ok (possible_values.foldl
        (fun acc2 p => if f p.1 then add_tok acc2 p.2 else acc2) acc)
    else .error .invalidConstraints
  | .str s =>
    match pvGet possible_values (casefold s) with
    | none => .error .invalidConstraints
    | some tok => .ok (add_tok acc tok)

/-- One (key, value) entry of the flattened conditions
    (utils.py lines 417-489). -/
def process_condition_resolved (net : BayesianNetwork) (ctx : ValueCtx)
    (cands : List Cand) (key1 : String)
    (possible_values : List (String × Token)) (nested_keys : List String) :
    Except Err (String × List Token) :=
  -- line 425: key = NETWORK.nodes_by_name[key].name
  match net.nodes_by_name key1 with
  | none => .error .keyError
  | some nd =>
    match cands.foldlM (fun acc cand =>
      if nested_keys.isEmpty then processDirectCand possible_values cand acc
      else processNestedCand ctx possible_values
        (nested_keys.map (fun s => casefold s)) cand acc) [] with
    | .error e => .error e
    | .ok toks => .ok (nd.name, toks)

def process_condition (net : BayesianNetwork) (ctx : ValueCtx) (key : String)
    (cands : List Cand) : Except Err (String × List Token) :=
  match lookup_possibilities net ctx key with
  | some pv => process_condition_resolved net ctx cands key pv []
  | none =>
    match lookup_root_possibilities net ctx (key.splitOn ".").length key [] with
    | some r => process_condition_resolved net ctx cands r.1 r.2.1 r.2.2
    | none => .error .invalidNode

/-- `build_evidence` (utils.py lines 405-500): flatten the user conditions,
    compile each entry into an allowed-token set stored under the node's
    canonical name (`evidence[key] = set()` then additions, so a repeated
    key overwrites), then run the validation/relaxation phase. -/
def BayesianNetwork.build_evidence (net : BayesianNetwork) (ctx : ValueCtx)
    (fuel : ℕ) (conditions : List (String × UserVal)) (strict : Bool) :
    Except Err EvSets := do
  let flat := flatten_conditions fuel "" conditions
  let ev ← flat.foldlM (fun acc kv => do
      let r ← process_condition net ctx kv.1 kv.2.tupilize
      pure (dinsert acc r.1 r.2)) ([] : EvSets)
  net.build_evidence_validate strict ev

/-! ## Concrete example networks used by counterexamples and witnesses -/

/-- A single node whose CPT gives one value all the mass and the other
    value explicit probability zero. -/
def nodeM : BayesianNode :=
  { name := "m", parent_names := [], possible_values := ["v1", "v2"],
    probabilities := .probs [("v1", 1), ("v2", 0)] }

def netM : BayesianNetwork := { nodes_in_sampling_order := [nodeM] }

/-- Two nodes: a root `t` and a child `e` that deterministically reflects
    `t`.  Evidence on `e` should force `t`, but `e` is not an ancestor of
    `t`. -/
def nodeT2 : BayesianNode :=
  { name := "t", parent_names := [], possible_values := ["a", "b"],
    probabilities := .probs [("a", 9/10), ("b", 1/10)] }

def nodeE2 : BayesianNode :=
  { name := "e", parent_names := ["t"], possible_values := ["x", "y"],
    probabilities := .branch
      [("a", .probs [("x", 1)]), ("b", .probs [("y", 1)])] }

def net2 : BayesianNetwork := { nodes_in_sampling_order := [nodeT2, nodeE2] }

/-- A root `p` whose CPT reaches only `w`, and a child `t`; evidence
    restricting `p` to `v` makes the beam collapse at `p`. -/
def nodeP : BayesianNode :=
  { name := "p", parent_names := [], possible_values := ["w", "v"],
    probabilities := .probs [("w", 1)] }

def nodeTC : BayesianNode :=
  { name := "t", parent_names := ["p"], possible_values := ["c"],
    probabilities := .branch [("w", .probs [("c", 1)])] }

def netC : BayesianNetwork := { nodes_in_sampling_order := [nodeP, nodeTC] }

/-- Four nodes: `A` with two children `B`, `C` that deterministically copy
    it, and an independent root `D`.  `{B: b1}` and `{C: c2}` are jointly
    contradictory. -/
def nodeA4 : BayesianNode :=
  { name := "A", parent_names := [], possible_values := ["a1", "a2"],
    probabilities := .probs [("a1", 1/2), ("a2", 1/2)] }

def nodeB4 : BayesianNode :=
  { name := "B", parent_names := ["A"], possible_values := ["b1", "b2"],
    probabilities := .branch
      [("a1", .probs [("b1", 1)]), ("a2", .probs [("b2", 1)])] }

def nodeC4 : BayesianNode :=
  { name := "C", parent_names := ["A"], possible_values := ["c1", "c2"],
    probabilities := .branch
      [("a1", .probs [("c1", 1)]), ("a2", .probs [("c2", 1)])] }

def nodeD4 : BayesianNode :=
  { name := "D", parent_names := [], possible_values := ["d1", "d2"],
    probabilities := .probs [("d1", 1/2), ("d2", 1/2)] }

def netABCD : BayesianNetwork :=
  { nodes_in_sampling_order := [nodeA4, nodeB4, nodeC4, nodeD4] }

/-- A single node for the evidence-compiler counterexample. -/
def nodeN : BayesianNode :=
  { name := "n", parent_names := [], possible_values := ["x"],
    probabilities := .probs [("x", 1)] }

def netN : BayesianNetwork := { nodes_in_sampling_order := [nodeN] }

/-- A trivial value context: tokens decode to themselves, no nested paths. -/
def ctx0 : ValueCtx := { decode := fun t => t, atPath := fun _ _ => none }

/-- A constant anchor stream for the sampling witnesses. -/
def anchors0 : ℕ → Prob := fun _ => 0

/-! ## Specification-side definitions used for comparison -/

/-- Running cumulative probabilities of a distribution, starting from the
    given accumulator. -/
def cumulative : Prob → List (Token × Prob) → List (Token × Prob)
  | _, [] => []
  | acc, (v, p) :: rest => (v, acc + p) :: cumulative (acc + p) rest

/-- The sampling rule exactly as the claim words it: the first value in
    iteration order whose cumulative probability REACHES the anchor
    (cumulative ≥ u); if the cumulative total never reaches it, the LAST
    value iterated.  Written from the claim, to be compared against
    `sample_value_from_distribution`. -/
def claimed_sample (dist : List (Token × Prob)) (u : Prob) : Option Token :=
  match (cumulative 0 dist).find? (fun vp => decide (u ≤ vp.2)) with
  | some vp => some vp.1
  | none => dist.getLast?.map (·.1)

/-- The amended sampling rule: the first value whose cumulative probability
    STRICTLY exceeds the anchor, else the FIRST value of the distribution. -/
def amended_sample (dist : List (Token × Prob)) (u : Prob) : Option Token :=
  match (cumulative 0 dist).find? (fun vp => decide (u < vp.2)) with
  | some vp => some vp.1
  | none => dist.head?.map (·.1)

/-! ## Whole-network well-formedness (spec section 3, invariants 2 and 4) -/

/-- Invariant 4: node names are unique under case folding. -/
def NetNamesOK (net : BayesianNetwork) : Prop :=
  (net.nodes_in_sampling_order.map (fun nd => casefold nd.name)).Nodup

/-- Invariant 2: every CPT leaf key belongs to its node's possible values. -/
def NetCptOK (net : BayesianNetwork) : Prop :=
  ∀ nd ∈ net.nodes_in_sampling_order,
    CptKeysOK nd.possible_values nd.probabilities

/-- No empty set/tuple occurs anywhere in a user condition value. -/
inductive UserVal.NoEmptyColl : UserVal → Prop where
  | scalar : ∀ s, NoEmptyColl (.scalar s)
  | coll : ∀ l, l ≠ [] → NoEmptyColl (.coll l)
  | pred : ∀ f, NoEmptyColl (.pred f)
  | dict : ∀ entries, (∀ kv ∈ entries, NoEmptyColl kv.2) →
      NoEmptyColl (.dict entries)

/-- The node can emit token `v` during a beam expansion under evidence `E`:
    some conditional table of the node contains `v` with positive
    probability and `v` passes the node's evidence filter. -/
def NodeEmits (E : Evidence) (nd : BayesianNode) (v : Token) : Prop :=
  ∃ a cpt q, cpt_with_fallback nd a = some cpt ∧ (v, q) ∈ cpt ∧
    allowedOK (alookup E nd.name) v = true ∧ 0 < q

/-- The constraint-reachability property of one generated entry: a
    constrained node got a value from its evidence set, an unconstrained
    node one of its possible values. -/
def EvidenceRespecting (net : BayesianNetwork) (E : EvSets)
    (nv : String × Token) : Prop :=
  match alookup E nv.1 with
  | some s => nv.2 ∈ s
  | none => ∃ nd, net.nodes_by_name nv.1 = some nd ∧
      nv.2 ∈ nd.possible_values

/-- A one-parent node for the CPT-accessor counterexample. -/
def nodeQ : BayesianNode :=
  { name := "q", parent_names := ["p"], possible_values := ["a"],
    probabilities := .branch [("x", .probs [("a", 1)])] }

/-! # Theorems -/

/- Batteries marks the `Rat` arithmetic operations `@[irreducible]`; the
concrete evaluations below need the kernel to compute with exact rationals,
so restore the default reducibility for the rest of this development. -/
attribute [local semireducible] Rat.add Rat.sub Rat.mul Rat.inv

/-! ## Association-list basics -/

theorem alookup_cons {α : Type} (k' : String) (v : α) (l : List (String × α))
    (k : String) :
    alookup ((k', v) :: l) k = if k' == k then some v else alookup l k := rfl

theorem alookup_eq_none_iff {α : Type} (l : List (String × α)) (k : String) :
    alookup l k = none ↔ ∀ p ∈ l, p.1 ≠ k := by
  induction l with
  | nil => simp [alookup]
  | cons p rest ih =>
    cases hp : p.1 == k with
    | true =>
      have hpe : p.1 = k := by simpa using hp
      simp [alookup, hp, hpe]
    | false =>
      have hpe : p.1 ≠ k := by simpa using hp
      simp [alookup, hp, ih, hpe]

theorem alookup_mem {α : Type} {l : List (String × α)} {k : String} {v : α}
    (h : alookup l k = some v) : (k, v) ∈ l := by
  induction l with
  | nil => simp [alookup] at h
  | cons p rest ih =>
    cases hp : p.1 == k with
    | true =>
      have hpe : p.1 = k := by simpa using hp
      simp only [alookup, hp, if_true] at h
      have : p = (k, v) := by
        cases p with
        | mk a b => simp only [Option.some.injEq] at h; simp_all
      simp [this]
    | false =>
      simp only [alookup, hp, if_false] at h
      exact List.mem_cons_of_mem _ (ih h)

theorem alookup_map_overwrite {α : Type} (l : List (String × α)) (k : String)
    (v : α) :
    alookup (l.map (fun p => if p.1 == k then (k, v) else p)) k =
      if (alookup l k).isSome then some v else none := by
  induction l with
  | nil => simp [alookup]
  | cons p rest ih =>
    cases hp : p.1 == k with
    | true => simp [alookup, hp]
    | false =>
      simp only [List.map_cons, alookup, hp, Bool.false_eq_true, if_false]
      exact ih

theorem alookup_append {α : Type} (l₁ l₂ : List (String × α)) (k : String) :
    alookup (l₁ ++ l₂) k =
      match alookup l₁ k with
      | some v => some v
      | none => alookup l₂ k := by
  induction l₁ with
  | nil => simp [alookup]
  | cons p rest ih =>
    cases hp : p.1 == k with
    | true => simp [alookup, hp]
    | false => simp [alookup, hp, ih]

theorem alookup_dinsert_self {α : Type} (l : List (String × α)) (k : String)
    (v : α) : alookup (dinsert l k v) k = some v := by
  unfold dinsert
  by_cases hs : (alookup l k).isSome
  · rw [if_pos hs, alookup_map_overwrite, if_pos hs]
  · rw [if_neg hs, alookup_append]
    cases hl : alookup l k with
    | some w => rw [hl] at hs; simp at hs
    | none => simp [alookup]

theorem alookup_map_overwrite_other {α : Type} (l : List (String × α))
    (k k' : String) (v : α) (h : k' ≠ k) :
    alookup (l.map (fun p => if p.1 == k then (k, v) else p)) k' =
      alookup l k' := by
  have hkk : (k == k') = false := by
    simp only [beq_eq_false_iff_ne]; exact fun hh => h hh.symm
  induction l with
  | nil => simp [alookup]
  | cons p rest ih =>
    cases hp : p.1 == k with
    | true =>
      have hak : p.1 = k := by simpa using hp
      have hak' : (p.1 == k') = false := by rw [hak]; exact hkk
      simp only [List.map_cons, alookup, hp, hkk, hak', Bool.false_eq_true,
        if_true, if_false]
      exact ih
    | false =>
      cases hq : p.1 == k' with
      | true => simp [alookup, hp, hq]
      | false =>
        simp only [List.map_cons, alookup, hp, hq, Bool.false_eq_true, if_false]
        exact ih

theorem alookup_dinsert_other {α : Type} (l : List (String × α))
    (k k' : String) (v : α) (h : k' ≠ k) :
    alookup (dinsert l k v) k' = alookup l k' := by
  unfold dinsert
  by_cases hs : (alookup l k).isSome
  · rw [if_pos hs]; exact alookup_map_overwrite_other l k k' v h
  · rw [if_neg hs, alookup_append]
    have hkk : (k == k') = false := by
      simp only [beq_eq_false_iff_ne]; exact fun hh => h hh.symm
    cases hl : alookup l k' with
    | some w => simp
    | none => simp [alookup, hkk]

theorem mem_dinsert {α : Type} {l : List (String × α)} {k : String} {v : α}
    {p : String × α} (h : p ∈ dinsert l k v) :
    (p ∈ l ∧ p.1 ≠ k) ∨ p = (k, v) := by
  unfold dinsert at h
  by_cases hs : (alookup l k).isSome
  · rw [if_pos hs] at h
    obtain ⟨q, hq, hqe⟩ := List.mem_map.mp h
    by_cases hqk : (q.1 == k) = true
    · right; rw [if_pos hqk] at hqe; exact hqe.symm
    · left
      rw [if_neg hqk] at hqe
      subst hqe
      exact ⟨hq, by simpa using hqk⟩
  · rw [if_neg hs] at h
    rcases List.mem_append.mp h with h1 | h2
    · left
      refine ⟨h1, ?_⟩
      have hn := (alookup_eq_none_iff l k).mp
        (by cases hl : alookup l k <;> simp_all)
      exact hn p h1
    · right; simpa using h2

/-! ## C6: the CPT accessor -/

theorem gpgkv_go_none_iff (pv : List (String × Token)) (ps : List String)
    (c : Cpt) :
    gpgkv_go pv ps c = none ↔ ∃ p ∈ ps, alookup pv p = none := by
  induction ps generalizing c with
  | nil => simp [gpgkv_go]
  | cons p rest ih =>
    cases h : alookup pv p with
    | none =>
      simp only [gpgkv_go, h]
      exact ⟨fun _ => ⟨p, by simp, h⟩, fun _ => trivial⟩
    | some v =>
      simp only [gpgkv_go, h]
      rw [ih]
      constructor
      · rintro ⟨q, hq, hqn⟩; exact ⟨q, List.mem_cons_of_mem _ hq, hqn⟩
      · rintro ⟨q, hq, hqn⟩
        rcases List.mem_cons.mp hq with hqe | hqm
        · subst hqe; rw [h] at hqn; cases hqn
        · exact ⟨q, hqm, hqn⟩

theorem gpgkv_go_all_some (pv : List (String × Token)) (ps : List String)
    (c : Cpt) (h : ∀ p ∈ ps, (alookup pv p).isSome) :
    gpgkv_go pv ps c =
      some (Cpt.items
        (ps.foldl (fun c p => c.child ((alookup pv p).getD ("")))
          c)) := by
  induction ps generalizing c with
  | nil => simp [gpgkv_go]
  | cons p rest ih =>
    have hp := h p (by simp)
    cases hv : alookup pv p with
    | none => rw [hv] at hp; cases hp
    | some v =>
      simp only [gpgkv_go, hv, List.foldl_cons, hv, Option.getD_some]
      exact ih _ (fun q hq => h q (List.mem_cons_of_mem _ hq))

/-- C6 (counterexample): for a node with parent "p" and an empty
    `parent_values` mapping, the CPT accessor raises KeyError (line 51,
    `parent_values[parent_name]`), modelled as `none` — it does NOT return
    the empty map, so the accessor can fail. -/
theorem c6_counterexample :
    nodeQ.get_probabilities_given_known_values [] = none ∧
      nodeQ.get_probabilities_given_known_values [] ≠
        some ([] : List (Token × Prob)) := by
  refine ⟨rfl, ?_⟩
  intro h
  simp [nodeQ, BayesianNode.get_probabilities_given_known_values,
    gpgkv_go, alookup] at h

/-- C6 (amended): the accessor raises KeyError exactly when some declared
    parent name is absent from `parent_values`; when every parent name is
    present it totally descends the whole parent path (each missed CPT
    lookup contributing the empty table, hence an empty result — never a
    partially descended table). -/
theorem c6_amended (node : BayesianNode) (pv : List (String × Token)) :
    (node.get_probabilities_given_known_values pv = none ↔
      ∃ p ∈ node.parent_names, alookup pv p = none) ∧
    ((∀ p ∈ node.parent_names, (alookup pv p).isSome) →
      node.get_probabilities_given_known_values pv =
        some (Cpt.items
          (node.parent_names.foldl
            (fun c p => c.child ((alookup pv p).getD ("")))
            node.probabilities))) :=
  ⟨gpgkv_go_none_iff pv node.parent_names node.probabilities,
   fun h => gpgkv_go_all_some pv node.parent_names node.probabilities h⟩

/-- C6 (witness): the amended theorem applied at a concrete node whose
    parent is present in the mapping. -/
theorem c6_witness :
    nodeQ.get_probabilities_given_known_values [("p", "x")] =
      some [("a", 1)] := by
  have h := (c6_amended nodeQ [("p", "x")]).2 (by decide)
  rw [h]
  rfl

/-! ## C7: sampling from a distribution -/

theorem sampleWalk_eq_find (u : Prob) (dist : List (Token × Prob))
    (c : Prob) :
    sampleWalk u dist c =
      ((cumulative c dist).find? (fun vp => decide (u < vp.2))).map (·.1) := by
  induction dist generalizing c with
  | nil => simp [sampleWalk, cumulative]
  | cons vp rest ih =>
    cases vp with
    | mk v p =>
      by_cases h : u < c + p
      · simp [sampleWalk, cumulative, List.find?, h]
      · simp only [sampleWalk, cumulative, if_neg h]
        rw [List.find?_cons_of_neg _ (by simpa using h)]
        exact ih (c + p)

/-- C7 (counterexample): the claimed rule ("first value whose cumulative
    reaches u, else the last value iterated") disagrees with the source at
    two concrete inputs: at `u = 1/2` on `{a: 1/2, b: 1/2}` the code
    returns `b` (strict `anchor < cumulative`), the claim returns `a`; at
    `u = 9/10` on `{a: 3/10, b: 3/10}` (total mass below u) the code falls
    back to the FIRST key (`next(iter(keys))`, line 318), the claim to the
    last. -/
theorem c7_counterexample :
    (sample_value_from_distribution [("a", 1/2), ("b", 1/2)] (1/2) = some "b" ∧
      claimed_sample [("a", 1/2), ("b", 1/2)] (1/2) = some "a") ∧
    (sample_value_from_distribution [("a", 3/10), ("b", 3/10)] (9/10) =
        some "a" ∧
      claimed_sample [("a", 3/10), ("b", 3/10)] (9/10) = some "b") := by
  decide

/-- C7 (amended): `sample_value_from_distribution` returns the first value
    in iteration order whose cumulative probability STRICTLY exceeds the
    drawn anchor, and if no cumulative exceeds it (numerical underflow) it
    returns the FIRST value iterated, not the last. -/
theorem c7_amended (dist : List (Token × Prob)) (u : Prob) :
    sample_value_from_distribution dist u = amended_sample dist u := by
  unfold sample_value_from_distribution amended_sample
  rw [sampleWalk_eq_find]
  cases h : (cumulative 0 dist).find? (fun vp => decide (u < vp.2)) with
  | none => simp [h]
  | some vp => simp [h]

/-! ## C1: the relevant-node set -/

theorem relevantNodes_foldl_mem (net : BayesianNetwork)
    (E : Evidence) (init : List String) (name : String) :
    (name ∈ E.foldl
        (fun acc kv =>
          if net.hasNode kv.1 then acc ++ kv.1 :: net.ancestors kv.1 else acc)
        init) ↔
      name ∈ init ∨
        ∃ kv ∈ E, net.hasNode kv.1 = true ∧
          (name = kv.1 ∨ name ∈ net.ancestors kv.1) := by
  induction E generalizing init with
  | nil => simp
  | cons kv rest ih =>
    rw [List.foldl_cons, ih]
    rw [List.exists_mem_cons_iff
      (fun q : String × EvVal => net.hasNode q.1 = true ∧
        (name = q.1 ∨ name ∈ net.ancestors q.1)) kv rest]
    by_cases h : net.hasNode kv.1
    · rw [if_pos h]
      simp only [List.mem_append, List.mem_cons]
      constructor
      · rintro ((h1 | h2) | h3)
        · exact Or.inl h1
        · exact Or.inr (Or.inl ⟨h, h2⟩)
        · exact Or.inr (Or.inr h3)
      · rintro (h1 | (⟨_, h2⟩ | h3))
        · exact Or.inl (Or.inl h1)
        · exact Or.inl (Or.inr h2)
        · exact Or.inr h3
    · rw [if_neg h]
      constructor
      · rintro (h1 | h3)
        · exact Or.inl h1
        · exact Or.inr (Or.inr h3)
      · rintro (h1 | (⟨hh, _⟩ | h3))
        · exact Or.inl h1
        · exact absurd hh h
        · exact Or.inr h3

/-- C1 (counterexample): in `net2` the node `e` is evidence and a network
    node, yet `_beam_search_inference` processes only `["t"]` — the
    evidence node is NOT in the processed set, and the returned marginal is
    the unconditioned prior `{a: 9/10, b: 1/10}` rather than the
    distribution conditioned on `e = y` (which `BayesianNetwork.trace`
    computes as `{b: 1}`). -/
theorem c1_counterexample :
    ((bsiOrderedNodes net2 "t").map (fun nd => nd.name) = ["t"]) ∧
    net2.hasNode "e" = true ∧
    ("e" ∉ (bsiOrderedNodes net2 "t").map (fun nd => nd.name)) ∧
    beam_search_inference net2 "t" [("e", ["y"])] 1000 =
      some [("a", 9/10), ("b", 1/10)] ∧
    net2.trace "t" [("e", EvVal.set ["y"])] = some [("b", 1)] := by
  refine ⟨by decide, by decide, by decide, by decide, by decide⟩

/-- C1 (amended): `BayesianNetwork.trace` does process exactly
    `ancestors(t) ∪ {t}` together with `ancestors(e) ∪ {e}` for every
    evidence key `e` naming a node, in the network's topological order (the
    processed list is a sublist of the sampling order); but the module-level
    `trace` path (`_beam_search_inference`) processes only
    `ancestors(t) ∪ {t}`, ignoring evidence nodes outside the target's
    ancestry, so only `BayesianNetwork.trace` conditions on all evidence. -/
theorem c1_amended (net : BayesianNetwork) (target : String) (E : Evidence) :
    (∀ name,
      name ∈ net.relevantNodes target E ↔
        (name = target ∨ name ∈ net.ancestors target ∨
          ∃ kv ∈ E, net.hasNode kv.1 = true ∧
            (name = kv.1 ∨ name ∈ net.ancestors kv.1))) ∧
    (net.trace_ordered_nodes target E).Sublist net.nodes_in_sampling_order := by
  refine ⟨?_, List.filter_sublist _⟩
  intro name
  unfold BayesianNetwork.relevantNodes
  rw [relevantNodes_foldl_mem]
  simp [List.mem_cons, or_assoc]

/-! ## C2 (counterexample): conditioning on a zero-probability value -/

/-- C2 (counterexample): `v2` is a possible value of node `m`, but its CPT
    probability is 0, so `trace(m, {m: {v2}})` returns the empty
    distribution, not `{v2: 1.0}`. -/
theorem c2_counterexample :
    netM.trace "m" [("m", EvVal.set ["v2"])] = some [] ∧
    "v2" ∈ nodeM.possible_values ∧
    netM.trace "m" [("m", EvVal.set ["v2"])] ≠ some [("v2", 1)] := by
  refine ⟨by decide, by decide, by decide⟩

/-! ## C3: the build_evidence relaxation loop -/

/-- C3 (code behaviour at the failing input): with `strict=False` and
    evidence `{D:{d1}, B:{b1}, C:{c2}}` over `netABCD`, the validation
    phase pops `D` once and returns `{B:{b1}, C:{c2}}` WITHOUT
    re-validating — but that remainder still fails the feasibility check,
    while a single further drop (`{C:{c2}}`) would be feasible.  In strict
    mode the first failure is raised unchanged, as the claim states. -/
theorem c3_code_behaviour :
    netABCD.build_evidence_validate false
        [("D", ["d1"]), ("B", ["b1"]), ("C", ["c2"])] =
      .ok [("B", ["b1"]), ("C", ["c2"])] ∧
    netABCD.validate_evidence [("B", ["b1"]), ("C", ["c2"])] =
      .error (.restrictiveImpossible "B") ∧
    netABCD.validate_evidence [("C", ["c2"])] = .ok () ∧
    netABCD.build_evidence_validate true
        [("D", ["d1"]), ("B", ["b1"]), ("C", ["c2"])] =
      .error (.restrictiveImpossible "B") := by
  refine ⟨by decide, by decide, by decide, by decide⟩

/-! ## C5: empty beam behaviour -/

/-- C5 (counterexample): with evidence `{p: {v}}` over `netC` the beam
    collapses at node `p`, yet `BayesianNetwork.trace` RETURNS the empty
    distribution (no exception); `generate_certain_nodes` then raises
    `RestrictiveConstraints` naming the TARGET `t`, not the collapse node
    `p`; and `generate_consistent_sample` dies with StopIteration
    (modelled `none`), again not the claimed diagnostic. -/
theorem c5_counterexample :
    netC.trace "t" [("p", EvVal.set ["v"])] = some [] ∧
    netC.generate_certain_nodes [("p", ["v"])] ["t"] anchors0 =
      .error (.restrictiveEmptyDist "t") ∧
    netC.generate_consistent_sample [("p", ["v"])] anchors0 = none := by
  refine ⟨by decide, by decide, by decide⟩

/-- C5 (amended): when `BayesianNetwork.trace` returns the empty
    distribution (the empty-beam case included), the trace itself raises
    nothing; `generate_certain_nodes` is the caller that converts this into
    `RestrictiveConstraints`, and its diagnostic names the TARGET node
    (either "no valid values" when the target is constrained or "empty
    distribution" otherwise), not the node at which the beam collapsed. -/
theorem c5_amended (net : BayesianNetwork) (E : EvSets) (t : String)
    (anchors : ℕ → Prob) (h : net.trace t (evOf E) = some []) :
    net.generate_certain_nodes E [t] anchors =
        .error (.restrictiveNoValid t) ∨
      net.generate_certain_nodes E [t] anchors =
        .error (.restrictiveEmptyDist t) := by
  unfold BayesianNetwork.generate_certain_nodes
  simp only [gcnGo, h]
  cases halt : alookup E t with
  | some allowed =>
    left
    simp [halt, gcnDist]
  | none =>
    right
    simp [halt, gcnDist]

/-- C5 (witness): the amended theorem applied to `netC`. -/
theorem c5_witness :
    netC.generate_certain_nodes [("p", ["v"])] ["t"] anchors0 =
        .error (.restrictiveNoValid "t") ∨
      netC.generate_certain_nodes [("p", ["v"])] ["t"] anchors0 =
        .error (.restrictiveEmptyDist "t") :=
  c5_amended netC [("p", ["v"])] "t" anchors0 (by decide)

/-! ## C9 (counterexample): empty constraint tuples -/

/-- C9 (counterexample): the compiler accepts `{n: ()}` (an empty tuple
    constraint) without raising and stores an EMPTY allowed-value set for
    the root node `n`: the per-candidate loop never runs, so no error is
    reached and `evidence[n] = set()` survives to the output. -/
theorem c9_counterexample :
    netN.build_evidence ctx0 1 [("n", UserVal.coll [])] true =
      .ok [("n", [])] := by
  decide

/-! ## C10: trace is pure (the per-call CPT cache is inert) -/

theorem stepNodeCached_empty_cache (E : Evidence) (node : BayesianNode)
    (beam : Beam) (acc : Beam) :
    beam.foldlM
        (fun st ap =>
          let key := (node.name, tuple_of node ap.1)
          let cptO :=
            match cacheLookup st.2 key with
            | some cpt => some cpt
            | none => cpt_with_fallback node ap.1
          match cptO with
          | none => none
          | some cpt =>
            some (st.1 ++ (cpt.filter (fun vq =>
                allowedOK (alookup E node.name) vq.1 &&
                  decide (0 < vq.2))).map
              (fun vq => (dinsert ap.1 node.name vq.1, ap.2 * vq.2)), st.2))
        (acc, ([] : CptCache)) =
      (beam.foldlM
          (fun acc2 ap =>
            (expandEntry (alookup E node.name) node ap.1 ap.2).map
              (fun ex => acc2 ++ ex))
          acc).map (fun b => (b, ([] : CptCache))) := by
  induction beam generalizing acc with
  | nil => simp [List.foldlM]
  | cons ap rest ih =>
    simp only [List.foldlM]
    unfold expandEntry
    cases hc : cpt_with_fallback node ap.1 with
    | none => simp [cacheLookup, hc, alookup]
    | some cpt =>
      simp only [cacheLookup, List.find?, hc, Option.map_some]
      simpa using ih (acc ++ (cpt.filter (fun vq =>
          allowedOK (alookup E node.name) vq.1 && decide (0 < vq.2))).map
        (fun vq => (dinsert ap.1 node.name vq.1, ap.2 * vq.2)))

theorem runBeamCached_empty_cache (E : Evidence) (l : List BayesianNode)
    (beam : Beam) :
    runBeamCached E l beam [] =
      (runBeam E l beam).map (fun b => (b, ([] : CptCache))) := by
  induction l generalizing beam with
  | nil => simp [runBeamCached, runBeam]
  | cons node rest ih =>
    unfold runBeamCached runBeam
    have hs : stepNodeCached E node beam [] =
        (stepNode E node beam).map (fun b => (b, ([] : CptCache))) := by
      unfold stepNodeCached stepNode
      exact stepNodeCached_empty_cache E node beam []
    rw [hs]
    cases h : stepNode E node beam with
    | none => simp
    | some nb =>
      simp only [Option.map_some]
      by_cases he : nb.isEmpty
      · simp [he]
      · simp [he, ih]

/-- C10: `BayesianNetwork.trace` computes a pure function of the loaded
    network, the target and the evidence: the source consults no random
    source, the memoized ancestor closure is frozen at load time, pruning
    uses the deterministic `heapq.nlargest`, and the only per-call mutable
    structure — `cpt_cache`, which the source consults but never stores
    into — is semantically inert: threading it through the whole
    computation exactly as the source does yields the same distribution as
    the cache-free computation, so two evaluations with the same target and
    evidence return identical results. -/
theorem c10_trace_deterministic (net : BayesianNetwork) (target : String)
    (E : Evidence) :
    net.trace_with_cache target E = net.trace target E := by
  unfold BayesianNetwork.trace_with_cache BayesianNetwork.trace
  cases h : net.nodes_by_name target with
  | none => rfl
  | some tnode =>
    simp only []
    rw [runBeamCached_empty_cache]
    cases hr : runBeam E (net.trace_ordered_nodes tnode.name E) [([], 1)] with
    | none => simp
    | some finalBeam => simp

/-! ## C8: batch value lookup returns results in caller order -/

theorem foldlM_writes (pairs : List (ℕ × ℕ)) (read : ℕ → ℕ → String)
    (S : List (ℕ × ℕ)) (m0 : ℕ → Option String)
    (hval : ∀ p ∈ S, p.1 < pairs.length)
    (hnd : (S.map Prod.snd).Nodup) :
    ∃ m, S.foldlM
        (fun (m : ℕ → Option String) inp =>
          (pairs.get? inp.1).map
            (fun ol => Function.update m inp.2 (some (read ol.1 ol.2))))
        m0 = some m ∧
      (∀ j, j ∉ S.map Prod.snd → m j = m0 j) ∧
      (∀ p ∈ S, ∃ ol, pairs.get? p.1 = some ol ∧
        m p.2 = some (read ol.1 ol.2)) := by
  induction S generalizing m0 with
  | nil => exact ⟨m0, by simp [List.foldlM], fun j _ => rfl, by simp⟩
  | cons q rest ih =>
    have hq : q.1 < pairs.length := hval q (by simp)
    cases hol : pairs.get? q.1 with
    | none =>
      rw [List.get?_eq_none] at hol
      exact absurd hq (by omega)
    | some ol =>
      have hnd' : (rest.map Prod.snd).Nodup := (List.nodup_cons.mp hnd).2
      have hqn : q.2 ∉ rest.map Prod.snd := (List.nodup_cons.mp hnd).1
      obtain ⟨m, hm, hout, hin⟩ := ih
        (Function.update m0 q.2 (some (read ol.1 ol.2)))
        (fun p hp => hval p (List.mem_cons_of_mem _ hp)) hnd'
      refine ⟨m, ?_, ?_, ?_⟩
      · simp only [List.foldlM, hol, Option.map_some]
        exact hm
      · intro j hj
        have hj1 : j ≠ q.2 := by
          intro hh; exact hj (by simp [hh])
        have hj2 : j ∉ rest.map Prod.snd := by
          intro hh; exact hj (by simp [hh])
        rw [hout j hj2, Function.update_noteq hj1]
      · intro p hp
        rcases List.mem_cons.mp hp with rfl | hp2
        · exact ⟨ol, hol, by rw [hout p.2 hqn, Function.update_same]⟩
        · exact hin p hp2

theorem mapM_option_of_some {α β : Type} (g : α → Option β) (f : α → β)
    (l : List α) (h : ∀ a ∈ l, g a = some (f a)) :
    l.mapM g = some (l.map f) := by
  induction l with
  | nil => rfl
  | cons a rest ih =>
    rw [List.mapM_cons, h a (by simp),
      ih (fun b hb => h b (List.mem_cons_of_mem _ hb))]
    rfl

/-- C8: for valid tokens, the batch lookup succeeds and element `i` of the
    result is exactly the single lookup of token `i` — the sorted
    single-pass read still delivers results in the caller's original
    order. -/
theorem c8_batch_lookup_order (pairs : List (ℕ × ℕ))
    (read : ℕ → ℕ → String) (decode : Token → ℕ) (toks : List Token)
    (h : ∀ t ∈ toks, decode t < pairs.length) :
    ∃ res, lookup_value_list pairs read decode toks = some res ∧
      res.length = toks.length ∧
      ∀ i : ℕ, res.get? i =
        (toks.get? i).bind (lookup_value pairs read decode) := by
  have hperm : List.Perm
      ((toks.enum.map (fun nt => (decode nt.2, nt.1))).insertionSort pairLE)
      (toks.enum.map (fun nt => (decode nt.2, nt.1))) :=
    List.perm_insertionSort _ _
  have hLsnd : (toks.enum.map (fun nt => (decode nt.2, nt.1))).map Prod.snd =
      List.range toks.length := by
    rw [List.map_map]
    have : (Prod.snd ∘ fun nt : ℕ × Token => (decode nt.2, nt.1)) =
        Prod.fst := rfl
    rw [this, List.enum_map_fst]
  have hSperm : List.Perm
      (((toks.enum.map (fun nt => (decode nt.2, nt.1))).insertionSort
          pairLE).map Prod.snd) (List.range toks.length) := by
    rw [← hLsnd]; exact hperm.map _
  have hnd :
      ((((toks.enum.map (fun nt => (decode nt.2, nt.1))).insertionSort
          pairLE)).map Prod.snd).Nodup :=
    hSperm.nodup_iff.mpr (List.nodup_range _)
  have hval : ∀ p ∈ ((toks.enum.map
      (fun nt => (decode nt.2, nt.1))).insertionSort pairLE),
      p.1 < pairs.length := by
    intro p hp
    have hpL := hperm.mem_iff.mp hp
    obtain ⟨nt, hmem, rfl⟩ := List.mem_map.mp hpL
    have hget : toks.get? nt.1 = some nt.2 := List.mem_enum_iff_get?.mp hmem
    exact h _ (List.get?_mem hget)
  obtain ⟨m, hm, hout, hin⟩ := foldlM_writes pairs read _ (fun _ => none)
    hval hnd
  have hmi : ∀ i, i < toks.length →
      m i = (toks.get? i).bind (lookup_value pairs read decode) := by
    intro i hi
    have hiS : i ∈ (((toks.enum.map
        (fun nt => (decode nt.2, nt.1))).insertionSort pairLE)).map
          Prod.snd :=
      hSperm.mem_iff.mpr (List.mem_range.mpr hi)
    obtain ⟨p, hpS, hpi⟩ := List.mem_map.mp hiS
    obtain ⟨ol, hol, hm2⟩ := hin p hpS
    have hpL := hperm.mem_iff.mp hpS
    obtain ⟨nt, hmem, hpe⟩ := List.mem_map.mp hpL
    have hget : toks.get? nt.1 = some nt.2 := List.mem_enum_iff_get?.mp hmem
    have hp1 : p.1 = decode nt.2 := by rw [← hpe]
    have hp2 : p.2 = nt.1 := by rw [← hpe]
    rw [hp2] at hpi hm2
    rw [hpi] at hget hm2
    rw [hget, hm2]
    show _ = (some nt.2).bind (lookup_value pairs read decode)
    rw [Option.some_bind]
    unfold lookup_value
    rw [hp1] at hol
    rw [hol]
    rfl
  refine ⟨List.map (fun i => (m i).getD ("")) (List.range toks.length),
    ?_, by simp, ?_⟩
  · unfold lookup_value_list
    rw [hm]
    apply mapM_option_of_some
    intro i hi
    have hi2 := List.mem_range.mp hi
    have := hmi i hi2
    cases hg : toks.get? i with
    | none =>
      rw [List.get?_eq_none] at hg
      exact absurd hi2 (by omega)
    | some t =>
      rw [hg] at this
      cases hl : lookup_value pairs read decode t with
      | none =>
        unfold lookup_value at hl
        cases hpg : pairs.get? (decode t) with
        | none =>
          rw [List.get?_eq_none] at hpg
          exact absurd (h t (List.get?_mem hg)) (by omega)
        | some ol => rw [hpg] at hl; simp at hl
      | some s =>
        have hms : m i = some s := by rw [this, Option.some_bind, hl]
        simp [hms]
  · intro i
    rw [List.get?_map]
    by_cases hi : i < toks.length
    · rw [List.get?_eq_getElem?, List.getElem?_range hi]
      have := hmi i hi
      cases hg : toks.get? i with
      | none =>
        rw [List.get?_eq_none] at hg
        exact absurd hi (by omega)
      | some t =>
        rw [hg] at this
        cases hl : lookup_value pairs read decode t with
        | none =>
          unfold lookup_value at hl
          cases hpg : pairs.get? (decode t) with
          | none =>
            rw [List.get?_eq_none] at hpg
            exact absurd (h t (List.get?_mem hg)) (by omega)
          | some ol => rw [hpg] at hl; simp at hl
        | some s =>
          have hms : m i = some s := by rw [this, Option.some_bind, hl]
          simp [hms, hg, hl]
    · have h1 : (List.range toks.length).get? i = none := by
        rw [List.get?_eq_none]; simp; omega
      have h2 : toks.get? i = none := by
        rw [List.get?_eq_none]; omega
      rw [h1, h2]
      rfl

/-- C8 (witness): the theorem applied to a concrete store and token list,
    with a duplicate token and out-of-order offsets. -/
theorem c8_witness :
    ∃ res, lookup_value_list [(0, 1), (4, 2), (9, 3)]
        (fun o l => toString o ++ toString l)
        (fun s => s.length) ["aa", "", "aa"] = some res ∧
      res.length = (["aa", "", "aa"] : List Token).length ∧
      ∀ i : ℕ, res.get? i =
        ((["aa", "", "aa"] : List Token).get? i).bind
          (lookup_value [(0, 1), (4, 2), (9, 3)]
            (fun o l => toString o ++ toString l) (fun s => s.length)) :=
  c8_batch_lookup_order _ _ _ _ (by decide)

/-! ## Beam-search structure lemmas (shared by C2 and C4) -/

theorem mem_expandEntry {allowed : Option EvVal} {node : BayesianNode}
    {a : Assignment} {p : Prob} {ex : Beam}
    (h : expandEntry allowed node a p = some ex) :
    ∀ bp ∈ ex, ∃ cpt vq, cpt_with_fallback node a = some cpt ∧ vq ∈ cpt ∧
      allowedOK allowed vq.1 = true ∧ 0 < vq.2 ∧
      bp.1 = dinsert a node.name vq.1 ∧ bp.2 = p * vq.2 := by
  unfold expandEntry at h
  cases hc : cpt_with_fallback node a with
  | none => rw [hc] at h; cases h
  | some cpt =>
    rw [hc] at h
    injection h with h
    intro bp hbp
    rw [← h] at hbp
    obtain ⟨vq, hvq, hbe⟩ := List.mem_map.mp hbp
    have hvf := List.mem_filter.mp hvq
    have hsplit := hvf.2
    rw [Bool.and_eq_true] at hsplit
    refine ⟨cpt, vq, rfl, hvf.1, hsplit.1, by simpa using hsplit.2, ?_, ?_⟩
    · rw [← hbe]
    · rw [← hbe]

theorem mem_stepNode_aux {E : Evidence} {node : BayesianNode} :
    ∀ (beam : Beam) (acc : Beam) (res : Beam),
      beam.foldlM
          (fun acc2 ap =>
            (expandEntry (alookup E node.name) node ap.1 ap.2).map
              (fun ex => acc2 ++ ex))
          acc = some res →
      ∀ bp ∈ res, bp ∈ acc ∨
        ∃ ap ∈ beam, ∃ ex,
          expandEntry (alookup E node.name) node ap.1 ap.2 = some ex ∧
            bp ∈ ex := by
  intro beam
  induction beam with
  | nil =>
    intro acc res h bp hbp
    rw [List.foldlM_nil] at h
    injection h with h
    rw [← h] at hbp
    exact Or.inl hbp
  | cons ap rest ih =>
    intro acc res h bp hbp
    rw [List.foldlM_cons] at h
    cases hexp : expandEntry (alookup E node.name) node ap.1 ap.2 with
    | none => rw [hexp] at h; cases h
    | some ex =>
      rw [hexp] at h
      have h2 : rest.foldlM
          (fun acc2 ap =>
            (expandEntry (alookup E node.name) node ap.1 ap.2).map
              (fun ex => acc2 ++ ex))
          (acc ++ ex) = some res := h
      rcases ih (acc ++ ex) res h2 bp hbp with hacc | ⟨ap2, hap2, ex2, he2, hbe2⟩
      · rcases List.mem_append.mp hacc with h1 | h2
        · exact Or.inl h1
        · exact Or.inr ⟨ap, by simp, ex, hexp, h2⟩
      · exact Or.inr ⟨ap2, List.mem_cons_of_mem _ hap2, ex2, he2, hbe2⟩

theorem mem_stepNode {E : Evidence} {node : BayesianNode} {beam nb : Beam}
    (h : stepNode E node beam = some nb) :
    ∀ bp ∈ nb, ∃ ap ∈ beam, ∃ cpt vq,
      cpt_with_fallback node ap.1 = some cpt ∧ vq ∈ cpt ∧
      allowedOK (alookup E node.name) vq.1 = true ∧ 0 < vq.2 ∧
      bp.1 = dinsert ap.1 node.name vq.1 ∧ bp.2 = ap.2 * vq.2 := by
  intro bp hbp
  rcases mem_stepNode_aux beam [] nb h bp hbp with hnil | ⟨ap, hap, ex, hex, hbe⟩
  · cases hnil
  · obtain ⟨cpt, vq, h1, h2, h3, h4, h5, h6⟩ := mem_expandEntry hex bp hbe
    exact ⟨ap, hap, cpt, vq, h1, h2, h3, h4, h5, h6⟩

theorem mem_pruneBeam {l : Beam} {bp : Assignment × Prob}
    (h : bp ∈ pruneBeam l) : bp ∈ l := by
  unfold pruneBeam at h
  by_cases hl : BEAM_WIDTH < l.length
  · rw [if_pos hl] at h
    unfold nlargest at h
    have hsub := (List.take_sublist BEAM_WIDTH
      (l.insertionSort (fun x y => y.2 ≤ x.2))).subset h
    exact (List.perm_insertionSort _ l).subset hsub
  · rw [if_neg hl] at h
    exact h

theorem runBeam_cons_eq (E : Evidence) (node : BayesianNode)
    (rest : List BayesianNode) (beam : Beam) :
    runBeam E (node :: rest) beam =
      match stepNode E node beam with
      | none => none
      | some nb =>
        if nb.isEmpty then some [] else runBeam E rest (pruneBeam nb) := rfl

theorem runBeam_nil_beam (E : Evidence) (l : List BayesianNode) :
    runBeam E l [] = some [] := by
  induction l with
  | nil => rfl
  | cons node rest ih => simp [runBeam, stepNode]

theorem runBeam_append (E : Evidence) (xs ys : List BayesianNode)
    (beam : Beam) :
    runBeam E (xs ++ ys) beam = (runBeam E xs beam).bind (runBeam E ys) := by
  induction xs generalizing beam with
  | nil => rfl
  | cons x xs ih =>
    rw [List.cons_append, runBeam_cons_eq, runBeam_cons_eq]
    cases h : stepNode E x beam with
    | none => rfl
    | some nb =>
      by_cases he : nb.isEmpty
      · show (if nb.isEmpty then some [] else _) =
          (if nb.isEmpty then some [] else _).bind (runBeam E ys)
        rw [if_pos he, if_pos he, Option.some_bind, runBeam_nil_beam]
      · show (if nb.isEmpty then some [] else runBeam E (xs ++ ys) (pruneBeam nb)) =
          (if nb.isEmpty then some [] else runBeam E xs (pruneBeam nb)).bind
            (runBeam E ys)
        rw [if_neg he, if_neg he]
        exact ih (pruneBeam nb)

theorem runBeam_preserve (Q : Assignment → Prop) {E : Evidence}
    {l : List BayesianNode} {beam finalB : Beam}
    (h : runBeam E l beam = some finalB)
    (hstable : ∀ nd ∈ l, ∀ a v, Q a → Q (dinsert a nd.name v))
    (hb : ∀ ap ∈ beam, Q ap.1) : ∀ bp ∈ finalB, Q bp.1 := by
  induction l generalizing beam with
  | nil =>
    unfold runBeam at h
    injection h with h
    rw [← h]
    exact fun bp hbp => hb bp hbp
  | cons node rest ih =>
    unfold runBeam at h
    cases hs : stepNode E node beam with
    | none => rw [hs] at h; cases h
    | some nb =>
      rw [hs] at h
      by_cases he : nb.isEmpty
      · simp only [he, if_true] at h
        injection h with h
        rw [← h]
        intro bp hbp
        cases hbp
      · simp only [he, if_false, Bool.false_eq_true] at h
        refine ih h (fun nd hnd => hstable nd (List.mem_cons_of_mem _ hnd)) ?_
        intro ap hap
        obtain ⟨ap0, hap0, cpt, vq, _, _, _, _, h5, _⟩ :=
          mem_stepNode hs ap (mem_pruneBeam hap)
        rw [h5]
        exact hstable node (by simp) ap0.1 vq.1 (hb ap0 hap0)

theorem runBeam_pos {E : Evidence} {l : List BayesianNode} {beam finalB : Beam}
    (h : runBeam E l beam = some finalB)
    (hb : ∀ ap ∈ beam, 0 < ap.2) : ∀ bp ∈ finalB, 0 < bp.2 := by
  induction l generalizing beam with
  | nil =>
    unfold runBeam at h
    injection h with h
    rw [← h]
    exact hb
  | cons node rest ih =>
    unfold runBeam at h
    cases hs : stepNode E node beam with
    | none => rw [hs] at h; cases h
    | some nb =>
      rw [hs] at h
      by_cases he : nb.isEmpty
      · simp only [he, if_true] at h
        injection h with h
        rw [← h]
        intro bp hbp
        cases hbp
      · simp only [he, if_false, Bool.false_eq_true] at h
        refine ih h ?_
        intro ap hap
        obtain ⟨ap0, hap0, cpt, vq, _, _, _, h4, _, h6⟩ :=
          mem_stepNode hs ap (mem_pruneBeam hap)
        rw [h6]
        exact mul_pos (hb ap0 hap0) h4

theorem runBeam_origin {E : Evidence} {l : List BayesianNode}
    {beam finalB : Beam} (h : runBeam E l beam = some finalB) :
    ∀ bp ∈ finalB, ∀ key v, alookup bp.1 key = some v →
      (∃ ap ∈ beam, alookup ap.1 key = some v) ∨
      (∃ nd ∈ l, nd.name = key ∧ NodeEmits E nd v) := by
  induction l generalizing beam with
  | nil =>
    unfold runBeam at h
    injection h with h
    rw [← h]
    exact fun bp hbp key v hv => Or.inl ⟨bp, hbp, hv⟩
  | cons node rest ih =>
    unfold runBeam at h
    cases hs : stepNode E node beam with
    | none => rw [hs] at h; cases h
    | some nb =>
      rw [hs] at h
      by_cases he : nb.isEmpty
      · simp only [he, if_true] at h
        injection h with h
        rw [← h]
        intro bp hbp
        cases hbp
      · simp only [he, if_false, Bool.false_eq_true] at h
        intro bp hbp key v hv
        rcases ih h bp hbp key v hv with ⟨ap, hap, hav⟩ | ⟨nd, hnd, hne, hem⟩
        · obtain ⟨ap0, hap0, cpt, vq, h1, h2, h3, h4, h5, _⟩ :=
            mem_stepNode hs ap (mem_pruneBeam hap)
          rw [h5] at hav
          by_cases hkey : key = node.name
          · subst hkey
            rw [alookup_dinsert_self] at hav
            injection hav with hav
            subst hav
            exact Or.inr ⟨node, by simp, rfl, ap0.1, cpt, vq.2, h1, h2, h3, h4⟩
          · rw [alookup_dinsert_other _ _ _ _ hkey] at hav
            exact Or.inl ⟨ap0, hap0, hav⟩
        · exact Or.inr ⟨nd, List.mem_cons_of_mem _ hnd, hne, hem⟩

/-! ### CPT key containment under the data-model invariant -/

theorem cptKeysOK_child {pvs : List Token} {c : Cpt} (hc : CptKeysOK pvs c)
    (v : Token) : CptKeysOK pvs (c.child v) := by
  cases hc with
  | probs m hm =>
    exact CptKeysOK.probs [] (fun vp hvp => absurd hvp (List.not_mem_nil vp))
  | branch kvs hk =>
    show CptKeysOK pvs
      (((kvs.find? (fun p => p.1 == v)).map (·.2)).getD (Cpt.probs []))
    cases hf : kvs.find? (fun p => p.1 == v) with
    | none =>
      exact CptKeysOK.probs [] (fun vp hvp => absurd hvp (List.not_mem_nil vp))
    | some kc =>
      exact hk kc (List.mem_of_find?_eq_some hf)

theorem gpgkv_keys {pvs : List Token} {pv : List (String × Token)}
    {ps : List String} {c : Cpt} {res : List (Token × Prob)}
    (h : gpgkv_go pv ps c = some res) (hc : CptKeysOK pvs c) :
    ∀ vq ∈ res, vq.1 ∈ pvs := by
  induction ps generalizing c with
  | nil =>
    have h2 : some (Cpt.items c) = some res := h
    injection h2 with h2
    rw [← h2]
    cases hc with
    | probs m hm => exact hm
    | branch kvs hk => intro vq hvq; cases hvq
  | cons p rest ih =>
    have h2 : (match alookup pv p with
        | none => none
        | some v => gpgkv_go pv rest (c.child v)) = some res := h
    cases hl : alookup pv p with
    | none => rw [hl] at h2; cases h2
    | some v =>
      rw [hl] at h2
      exact ih h2 (cptKeysOK_child hc v)

theorem cpt_with_fallback_keys {nd : BayesianNode} {a : Assignment}
    {cpt : List (Token × Prob)} (h : cpt_with_fallback nd a = some cpt)
    (hwf : CptKeysOK nd.possible_values nd.probabilities) :
    ∀ vq ∈ cpt, vq.1 ∈ nd.possible_values := by
  unfold cpt_with_fallback at h
  obtain ⟨cpt0, hg, hcc⟩ := Option.map_eq_some'.mp h
  by_cases hb : (cpt0.isEmpty && !nd.possible_values.isEmpty) = true
  · rw [if_pos hb] at hcc
    rw [← hcc]
    intro vq hvq
    obtain ⟨v, hv, hve⟩ := List.mem_map.mp hvq
    rw [← hve]
    exact hv
  · rw [if_neg hb] at hcc
    rw [← hcc]
    exact gpgkv_keys hg hwf

theorem nodeEmits_possible {E : Evidence} {nd : BayesianNode} {v : Token}
    (h : NodeEmits E nd v)
    (hwf : CptKeysOK nd.possible_values nd.probabilities) :
    v ∈ nd.possible_values := by
  obtain ⟨a, cpt, q, h1, h2, _, _⟩ := h
  exact cpt_with_fallback_keys h1 hwf (v, q) h2

/-! ### Marginal extraction lemmas -/

theorem mem_addWeight {acc : List (Token × Prob)} {v : Token} {p : Prob}
    {vp : Token × Prob} (h : vp ∈ addWeight acc v p) :
    (∃ q, (vp.1, q) ∈ acc) ∨ vp.1 = v := by
  unfold addWeight at h
  by_cases hs : (alookup acc v).isSome
  · rw [if_pos hs] at h
    obtain ⟨kv, hkv, hke⟩ := List.mem_map.mp h
    by_cases hk : (kv.1 == v) = true
    · rw [if_pos hk] at hke
      right
      rw [← hke]
      simpa using hk
    · rw [if_neg hk] at hke
      left
      rw [← hke]
      exact ⟨kv.2, hkv⟩
  · rw [if_neg hs] at h
    rcases List.mem_append.mp h with h1 | h2
    · exact Or.inl ⟨vp.2, h1⟩
    · right
      have : vp = (v, p) := by simpa using h2
      rw [this]

theorem collectTarget_keys {target : String} {beam : Beam} :
    ∀ vp ∈ collectTarget target beam, ∃ ap ∈ beam,
      alookup ap.1 target = some vp.1 := by
  unfold collectTarget
  suffices hgen : ∀ (b : Beam) (acc : List (Token × Prob)),
      ∀ vp ∈ b.foldl (fun acc ap =>
          match alookup ap.1 target with
          | some v => addWeight acc v ap.2
          | none => acc) acc,
        (∃ q, (vp.1, q) ∈ acc) ∨
          ∃ ap ∈ b, alookup ap.1 target = some vp.1 by
    intro vp hvp
    rcases hgen beam [] vp hvp with ⟨q, hq⟩ | h2
    · cases hq
    · exact h2
  intro b
  induction b with
  | nil => intro acc vp hvp; exact Or.inl ⟨vp.2, hvp⟩
  | cons ap rest ih =>
    intro acc vp hvp
    rw [List.foldl_cons] at hvp
    cases hl : alookup ap.1 target with
    | none =>
      rw [hl] at hvp
      rcases ih acc vp hvp with h1 | ⟨ap2, hap2, hl2⟩
      · exact Or.inl h1
      · exact Or.inr ⟨ap2, List.mem_cons_of_mem _ hap2, hl2⟩
    | some v =>
      rw [hl] at hvp
      rcases ih (addWeight acc v ap.2) vp hvp with ⟨q, hq⟩ | ⟨ap2, hap2, hl2⟩
      · rcases mem_addWeight hq with ⟨q2, hq2⟩ | hkey
        · exact Or.inl ⟨q2, hq2⟩
        · refine Or.inr ⟨ap, by simp, ?_⟩
          rw [hl, hkey]
      · exact Or.inr ⟨ap2, List.mem_cons_of_mem _ hap2, hl2⟩

theorem addWeight_nil (v : Token) (p : Prob) : addWeight [] v p = [(v, p)] := by
  simp [addWeight, alookup]

theorem addWeight_single (v : Token) (s p : Prob) :
    addWeight [(v, s)] v p = [(v, s + p)] := by
  simp [addWeight, alookup]

theorem collectTarget_singleton {target : String} {beam : Beam} {v : Token}
    (hall : ∀ ap ∈ beam, alookup ap.1 target = some v ∧ 0 < ap.2) :
    collectTarget target beam = [] ∨
      ∃ s, collectTarget target beam = [(v, s)] ∧ 0 < s := by
  unfold collectTarget
  suffices hgen : ∀ (b : Beam) (acc : List (Token × Prob)),
      (∀ ap ∈ b, alookup ap.1 target = some v ∧ 0 < ap.2) →
      (acc = [] ∨ ∃ s, acc = [(v, s)] ∧ 0 < s) →
      (b.foldl (fun acc ap =>
          match alookup ap.1 target with
          | some w => addWeight acc w ap.2
          | none => acc) acc = [] ∨
        ∃ s, b.foldl (fun acc ap =>
          match alookup ap.1 target with
          | some w => addWeight acc w ap.2
          | none => acc) acc = [(v, s)] ∧ 0 < s) by
    exact hgen beam [] hall (Or.inl rfl)
  intro b
  induction b with
  | nil => intro acc _ hacc; exact hacc
  | cons ap rest ih =>
    intro acc hall hacc
    rw [List.foldl_cons]
    have ⟨hl, hp⟩ := hall ap (by simp)
    rw [hl]
    refine ih _ (fun q hq => hall q (List.mem_cons_of_mem _ hq)) ?_
    rcases hacc with rfl | ⟨s, rfl, hs⟩
    · exact Or.inr ⟨ap.2, addWeight_nil v ap.2, hp⟩
    · exact Or.inr ⟨s + ap.2, addWeight_single v s ap.2, by positivity⟩

theorem traceFinish_keys {tname : String} {fb : Beam} :
    ∀ vp ∈ traceFinish tname fb, ∃ ap ∈ fb,
      alookup ap.1 tname = some vp.1 := by
  unfold traceFinish
  by_cases hpos : 0 < ((collectTarget tname fb).map (·.2)).sum
  · rw [if_pos hpos]
    intro vp hvp
    obtain ⟨vp0, hvp0, hve⟩ := List.mem_map.mp hvp
    obtain ⟨ap, hap, hl⟩ := collectTarget_keys vp0 hvp0
    rw [← hve]
    exact ⟨ap, hap, hl⟩
  · rw [if_neg hpos]
    intro vp hvp
    cases hvp

theorem traceFinish_of_singleton {tname : String} {fb : Beam} {v : Token}
    (hall : ∀ bp ∈ fb, alookup bp.1 tname = some v ∧ 0 < bp.2) :
    traceFinish tname fb = [] ∨ traceFinish tname fb = [(v, 1)] := by
  rcases collectTarget_singleton hall with hc | ⟨s, hc, hs⟩
  · left
    unfold traceFinish
    rw [hc]
    simp
  · right
    unfold traceFinish
    rw [hc]
    have htot : ((([(v, s)] : List (Token × Prob)).map (·.2)).sum) = s := by
      simp
    rw [htot, if_pos hs]
    simp [div_self (ne_of_gt hs)]

theorem trace_shape {net : BayesianNetwork} {t : String} {E : Evidence}
    {dist : List (Token × Prob)} {tn : BayesianNode} {fb : Beam}
    (h1 : net.nodes_by_name t = some tn)
    (hr : runBeam E (net.trace_ordered_nodes tn.name E) [([], 1)] = some fb)
    (h : net.trace t E = some dist) : dist = traceFinish tn.name fb := by
  unfold BayesianNetwork.trace at h
  rw [h1] at h
  have h2 : (match runBeam E (net.trace_ordered_nodes tn.name E) [([], 1)] with
      | none => none
      | some fb2 => some (traceFinish tn.name fb2)) = some dist := h
  rw [hr] at h2
  have h3 : some (traceFinish tn.name fb) = some dist := h2
  injection h3 with h3
  exact h3.symm

theorem trace_runBeam_exists {net : BayesianNetwork} {t : String}
    {E : Evidence} {dist : List (Token × Prob)} {tn : BayesianNode}
    (h1 : net.nodes_by_name t = some tn) (h : net.trace t E = some dist) :
    ∃ fb, runBeam E (net.trace_ordered_nodes tn.name E) [([], 1)] = some fb := by
  unfold BayesianNetwork.trace at h
  rw [h1] at h
  have h2 : (match runBeam E (net.trace_ordered_nodes tn.name E) [([], 1)] with
      | none => none
      | some fb2 => some (traceFinish tn.name fb2)) = some dist := h
  cases hr : runBeam E (net.trace_ordered_nodes tn.name E) [([], 1)] with
  | none => rw [hr] at h2; cases h2
  | some fb => exact ⟨fb, rfl⟩

/-- The target node itself is always among the ordered relevant nodes. -/
theorem target_mem_ordered {net : BayesianNetwork} {t : String}
    {tn : BayesianNode} (h1 : net.nodes_by_name t = some tn) (E : Evidence) :
    tn ∈ net.trace_ordered_nodes tn.name E := by
  refine List.mem_filter.mpr ⟨List.mem_of_find?_eq_some h1, ?_⟩
  have hmem : tn.name ∈ net.relevantNodes tn.name E := by
    unfold BayesianNetwork.relevantNodes
    rw [relevantNodes_foldl_mem]
    exact Or.inl (by simp)
  simpa [List.contains, List.elem_iff] using hmem

/-! ## C2 (amended): conditioning on a singleton either empties or pins -/

/-- C2 (amended): for a target `t` resolving to node `tn` (over a network
    with unique node names), conditioning `t` on the single value `v` never
    yields anything other than `{}` (when `v` carries no probability mass
    along any surviving configuration) or exactly `{v : 1.0}` — `trace`
    cannot return a distribution containing any other value or weight. -/
theorem c2_amended (net : BayesianNetwork) (t v : String)
    (tn : BayesianNode) (dist : List (Token × Prob))
    (h1 : net.nodes_by_name t = some tn)
    (h2 : (net.nodes_in_sampling_order.map (fun nd => nd.name)).Nodup)
    (h3 : v ∈ tn.possible_values)
    (h : net.trace t [(tn.name, EvVal.set [v])] = some dist) :
    dist = [] ∨ dist = [(v, 1)] := by
  obtain ⟨fb, hr⟩ := trace_runBeam_exists h1 h
  have hshape := trace_shape h1 hr h
  have htnord := target_mem_ordered h1 [(tn.name, EvVal.set [v])]
  obtain ⟨s, w, hsplit⟩ := List.append_of_mem htnord
  have hnames : ((net.trace_ordered_nodes tn.name
      [(tn.name, EvVal.set [v])]).map (fun nd => nd.name)).Nodup :=
    h2.sublist ((List.filter_sublist _).map _)
  have hwnames : tn.name ∉ w.map (fun nd => nd.name) := by
    have hsub : (tn :: w).Sublist (s ++ tn :: w) :=
      List.sublist_append_right _ _
    have : ((tn :: w).map (fun nd => nd.name)).Nodup := by
      rw [hsplit] at hnames
      exact hnames.sublist (hsub.map _)
    exact (List.nodup_cons.mp this).1
  rw [hsplit, runBeam_append] at hr
  cases hmid : runBeam [(tn.name, EvVal.set [v])] s [([], 1)] with
  | none => rw [hmid] at hr; cases hr
  | some bmid =>
    rw [hmid, Option.some_bind, runBeam_cons_eq] at hr
    cases hstep : stepNode [(tn.name, EvVal.set [v])] tn bmid with
    | none => rw [hstep] at hr; cases hr
    | some nb =>
      rw [hstep] at hr
      by_cases hemp : nb.isEmpty
      · simp only [hemp, if_true] at hr
        injection hr with hr
        rw [hshape, ← hr]
        left
        unfold traceFinish collectTarget
        simp
      · simp only [hemp, if_false, Bool.false_eq_true] at hr
        have hposmid : ∀ ap ∈ bmid, 0 < ap.2 := by
          refine runBeam_pos hmid ?_
          intro ap hap
          have : ap = (([] : Assignment), (1 : Prob)) := by simpa using hap
          rw [this]
          norm_num
        have halook : alookup [(tn.name, EvVal.set [v])] tn.name =
            some (EvVal.set [v]) := by simp [alookup]
        have hnb : ∀ bp ∈ nb, alookup bp.1 tn.name = some v ∧ 0 < bp.2 := by
          intro bp hbp
          obtain ⟨ap, hap, cpt, vq, hc1, hc2, hc3, hc4, hc5, hc6⟩ :=
            mem_stepNode hstep bp hbp
          have hveq : vq.1 = v := by
            rw [halook] at hc3
            unfold allowedOK at hc3
            simp only [EvVal.holds] at hc3
            have := List.elem_iff.mp hc3
            simpa using this
          constructor
          · rw [hc5, hveq, alookup_dinsert_self]
          · rw [hc6]
            exact mul_pos (hposmid ap hap) hc4
        have hfinal : ∀ bp ∈ fb, alookup bp.1 tn.name = some v ∧ 0 < bp.2 := by
          have hfl : ∀ bp ∈ fb, alookup bp.1 tn.name = some v := by
            refine runBeam_preserve
              (fun a => alookup a tn.name = some v) hr ?_ ?_
            · intro nd hnd a v2 hQ
              have hne : tn.name ≠ nd.name := by
                intro hh
                exact hwnames (by
                  rw [hh]
                  exact List.mem_map_of_mem _ hnd)
              rw [alookup_dinsert_other _ _ _ _ hne]
              exact hQ
            · intro ap hap
              exact (hnb ap (mem_pruneBeam hap)).1
          have hfp : ∀ bp ∈ fb, 0 < bp.2 := by
            refine runBeam_pos hr ?_
            intro ap hap
            exact (hnb ap (mem_pruneBeam hap)).2
          exact fun bp hbp => ⟨hfl bp hbp, hfp bp hbp⟩
        rw [hshape]
        exact traceFinish_of_singleton hfinal

/-- C2 (witness): the amended theorem applied to the one-node network at
    its full-mass value, where trace indeed pins `{v1: 1.0}`. -/
theorem c2_witness :
    ([("v1", (1 : Prob))] = ([] : List (Token × Prob)) ∨
      [("v1", (1 : Prob))] = [("v1", (1 : Prob))]) :=
  c2_amended netM "m" "v1" nodeM [("v1", 1)] (by rfl) (by decide) (by decide)
    (by decide)

/-! ## C4: constraint reachability of the generators -/

theorem sampleWalk_mem {u : Prob} {dist : List (Token × Prob)} {c : Prob}
    {v : Token} (h : sampleWalk u dist c = some v) : ∃ p, (v, p) ∈ dist := by
  induction dist generalizing c with
  | nil => cases h
  | cons wp rest ih =>
    cases wp with
    | mk w p =>
      unfold sampleWalk at h
      by_cases hlt : u < c + p
      · rw [if_pos hlt] at h
        injection h with h
        exact ⟨p, by simp [h]⟩
      · rw [if_neg hlt] at h
        obtain ⟨q, hq⟩ := ih h
        exact ⟨q, List.mem_cons_of_mem _ hq⟩

theorem sample_mem {dist : List (Token × Prob)} {u : Prob} {v : Token}
    (h : sample_value_from_distribution dist u = some v) :
    ∃ p, (v, p) ∈ dist := by
  unfold sample_value_from_distribution at h
  cases hw : sampleWalk u dist 0 with
  | some w =>
    rw [hw] at h
    injection h with h
    rw [← h]
    exact sampleWalk_mem hw
  | none =>
    rw [hw] at h
    cases hh : dist.head? with
    | none => rw [hh] at h; cases h
    | some hd =>
      rw [hh] at h
      injection h with h
      refine ⟨hd.2, ?_⟩
      have hm := List.mem_of_mem_head? hh
      rw [← h]
      simpa using hm

/-- Whatever distribution `trace` returns, its keys are possible values of
    the node the target resolves to (under the data-model invariants). -/
theorem trace_keys {net : BayesianNetwork}
    (hn : (net.nodes_in_sampling_order.map
      (fun nd => casefold nd.name)).Nodup)
    (hwf : NetCptOK net) {t : String} {E : Evidence}
    {dist : List (Token × Prob)} (h : net.trace t E = some dist) :
    ∀ vp ∈ dist, ∃ tn, net.nodes_by_name t = some tn ∧
      vp.1 ∈ tn.possible_values := by
  cases h1 : net.nodes_by_name t with
  | none =>
    unfold BayesianNetwork.trace at h
    rw [h1] at h
    exact absurd h (by simp)
  | some tn =>
    obtain ⟨fb, hr⟩ := trace_runBeam_exists h1 h
    have hshape := trace_shape h1 hr h
    intro vp hvp
    rw [hshape] at hvp
    obtain ⟨ap, hap, hl⟩ := traceFinish_keys vp hvp
    rcases runBeam_origin hr ap hap tn.name vp.1 hl with
      ⟨ap0, hap0, hl0⟩ | ⟨nd, hnd, hname, hem⟩
    · have : ap0 = (([] : Assignment), (1 : Prob)) := by simpa using hap0
      rw [this] at hl0
      cases hl0
    · have hnds : nd ∈ net.nodes_in_sampling_order :=
        (List.filter_sublist _).subset hnd
      have htns : tn ∈ net.nodes_in_sampling_order :=
        List.mem_of_find?_eq_some h1
      have hndtn : nd = tn :=
        List.inj_on_of_nodup_map hn hnds htns (by rw [hname])
      refine ⟨tn, rfl, ?_⟩
      rw [← hndtn]
      exact nodeEmits_possible hem (hwf nd hnds)

theorem gcsConstrainedDist_keys {net : BayesianNetwork}
    {node : BayesianNode} {cur : EvSets} {allowed : List Token}
    {fdist : List (Token × Prob)}
    (h : gcsConstrainedDist net node cur allowed = some fdist) :
    ∀ vp ∈ fdist, vp.1 ∈ allowed := by
  unfold gcsConstrainedDist at h
  cases htr : net.trace node.name
      (evOf (cur.filter (fun kv => !(kv.1 == node.name)))) with
  | none => rw [htr] at h; cases h
  | some dist =>
    rw [htr] at h
    have h2 : (if (dist.filter (fun vp => allowed.contains vp.1)).isEmpty ||
        decide (((dist.filter (fun vp => allowed.contains vp.1)).map
          (·.2)).sum ≤ 0) then
        if allowed.isEmpty then none
        else some (allowed.map (fun v2 => (v2, 1 / (allowed.length : ℚ))))
      else
        some ((dist.filter (fun vp => allowed.contains vp.1)).map
          (fun vp => (vp.1, vp.2 /
            ((dist.filter (fun vp => allowed.contains vp.1)).map
              (·.2)).sum)))) = some fdist := h
    by_cases hb : (dist.filter (fun vp => allowed.contains vp.1)).isEmpty ||
        decide (((dist.filter (fun vp => allowed.contains vp.1)).map
          (·.2)).sum ≤ 0)
    · rw [if_pos hb] at h2
      by_cases ha : allowed.isEmpty
      · rw [if_pos ha] at h2; cases h2
      · rw [if_neg ha] at h2
        injection h2 with h2
        rw [← h2]
        intro vp hvp
        obtain ⟨w, hw, hwe⟩ := List.mem_map.mp hvp
        rw [← hwe]
        exact hw
    · rw [if_neg hb] at h2
      injection h2 with h2
      rw [← h2]
      intro vp hvp
      obtain ⟨vp0, hvp0, hve⟩ := List.mem_map.mp hvp
      have := (List.mem_filter.mp hvp0).2
      rw [← hve]
      simpa [List.elem_iff] using this

theorem gcnDist_keys_some {t : String} {dist : List (Token × Prob)}
    {allowed : List Token} {d : List (Token × Prob)}
    (h : gcnDist t dist (some allowed) = .ok d) :
    ∀ vp ∈ d, vp.1 ∈ allowed := by
  have h2 : (if (dist.filter (fun vp => allowed.contains vp.1)).isEmpty ||
      decide (((dist.filter (fun vp => allowed.contains vp.1)).map
        (·.2)).sum ≤ 0) then
      (Except.error (Err.restrictiveNoValid t) :
        Except Err (List (Token × Prob)))
    else
      .ok ((dist.filter (fun vp => allowed.contains vp.1)).map
        (fun vp => (vp.1, vp.2 /
          ((dist.filter (fun vp => allowed.contains vp.1)).map
            (·.2)).sum)))) = .ok d := h
  by_cases hb : (dist.filter (fun vp => allowed.contains vp.1)).isEmpty ||
      decide (((dist.filter (fun vp => allowed.contains vp.1)).map
        (·.2)).sum ≤ 0)
  · rw [if_pos hb] at h2; cases h2
  · rw [if_neg hb] at h2
    injection h2 with h
    rw [← h]
    intro vp hvp
    obtain ⟨vp0, hvp0, hve⟩ := List.mem_map.mp hvp
    have := (List.mem_filter.mp hvp0).2
    rw [← hve]
    simpa [List.elem_iff] using this

theorem gcsGo_respects (net : BayesianNetwork)
    (hn : (net.nodes_in_sampling_order.map
      (fun nd => casefold nd.name)).Nodup)
    (hwf : NetCptOK net) (E : EvSets) (anchors : ℕ → Prob)
    (l : List BayesianNode) :
    ∀ (cur : EvSets) (result : List (String × Token)) (k : ℕ)
      (res : List (String × Token)),
      (l.map (fun nd => nd.name)).Nodup →
      (∀ nd ∈ l, alookup cur nd.name = alookup E nd.name) →
      (∀ nv ∈ result, EvidenceRespecting net E nv) →
      gcsGo net anchors l cur result k = some res →
      ∀ nv ∈ res, EvidenceRespecting net E nv := by
  induction l with
  | nil =>
    intro cur result k res _ _ hres h nv hnv
    have h2 : some result = some res := h
    injection h2 with h2
    rw [← h2] at hnv
    exact hres nv hnv
  | cons node rest ih =>
    intro cur result k res hnd hcur hres h nv hnv
    have hndr : (rest.map (fun nd => nd.name)).Nodup :=
      (List.nodup_cons.mp (by simpa using hnd)).2
    have hnn : node.name ∉ rest.map (fun nd => nd.name) :=
      (List.nodup_cons.mp (by simpa using hnd)).1
    have hcc := hcur node (by simp)
    have h2 : (match alookup cur node.name with
        | some allowed =>
          match gcsConstrainedDist net node cur allowed with
          | none => none
          | some fdist =>
            match sample_value_from_distribution fdist (anchors k) with
            | none => none
            | some sampled =>
              gcsGo net anchors rest (dinsert cur node.name [sampled])
                (dinsert result node.name sampled) (k + 1)
        | none =>
          match net.trace node.name (evOf cur) with
          | none => none
          | some dist =>
            match sample_value_from_distribution dist (anchors k) with
            | none => none
            | some sampled =>
              gcsGo net anchors rest (dinsert cur node.name [sampled])
                (dinsert result node.name sampled) (k + 1)) = some res := h
    have hrest : ∀ sampled,
        EvidenceRespecting net E (node.name, sampled) →
        gcsGo net anchors rest (dinsert cur node.name [sampled])
          (dinsert result node.name sampled) (k + 1) = some res →
        ∀ nv ∈ res, EvidenceRespecting net E nv := by
      intro sampled hgood hg
      refine ih (dinsert cur node.name [sampled])
        (dinsert result node.name sampled) (k + 1) res hndr ?_ ?_ hg
      · intro nd hndm
        have hne : nd.name ≠ node.name := by
          intro hh
          exact hnn (by rw [← hh]; exact List.mem_map_of_mem _ hndm)
        rw [alookup_dinsert_other _ _ _ _ hne]
        exact hcur nd (List.mem_cons_of_mem _ hndm)
      · intro nv2 hnv2
        rcases mem_dinsert hnv2 with ⟨hold, _⟩ | hnew
        · exact hres nv2 hold
        · rw [hnew]
          exact hgood
    cases hcl : alookup cur node.name with
    | some allowed =>
      rw [hcl] at h2
      have h3 : (match gcsConstrainedDist net node cur allowed with
          | none => none
          | some fdist =>
            match sample_value_from_distribution fdist (anchors k) with
            | none => none
            | some sampled =>
              gcsGo net anchors rest (dinsert cur node.name [sampled])
                (dinsert result node.name sampled) (k + 1)) = some res := h2
      cases hcd : gcsConstrainedDist net node cur allowed with
      | none => rw [hcd] at h3; cases h3
      | some fdist =>
        rw [hcd] at h3
        have h4 : (match sample_value_from_distribution fdist (anchors k) with
            | none => none
            | some sampled =>
              gcsGo net anchors rest (dinsert cur node.name [sampled])
                (dinsert result node.name sampled) (k + 1)) = some res := h3
        cases hs : sample_value_from_distribution fdist (anchors k) with
        | none => rw [hs] at h4; cases h4
        | some sampled =>
          rw [hs] at h4
          have h5 : gcsGo net anchors rest
              (dinsert cur node.name [sampled])
              (dinsert result node.name sampled) (k + 1) = some res := h4
          refine hrest sampled ?_ h5 nv hnv
          have hEc : alookup E node.name = some allowed := by
            rw [← hcc, hcl]
          obtain ⟨p, hp⟩ := sample_mem hs
          have hin : sampled ∈ allowed :=
            gcsConstrainedDist_keys hcd (sampled, p) hp
          unfold EvidenceRespecting
          rw [hEc]
          exact hin
    | none =>
      rw [hcl] at h2
      have h3 : (match net.trace node.name (evOf cur) with
          | none => none
          | some dist =>
            match sample_value_from_distribution dist (anchors k) with
            | none => none
            | some sampled =>
              gcsGo net anchors rest (dinsert cur node.name [sampled])
                (dinsert result node.name sampled) (k + 1)) = some res := h2
      cases htr : net.trace node.name (evOf cur) with
      | none => rw [htr] at h3; cases h3
      | some dist =>
        rw [htr] at h3
        have h4 : (match sample_value_from_distribution dist (anchors k) with
            | none => none
            | some sampled =>
              gcsGo net anchors rest (dinsert cur node.name [sampled])
                (dinsert result node.name sampled) (k + 1)) = some res := h3
        cases hs : sample_value_from_distribution dist (anchors k) with
        | none => rw [hs] at h4; cases h4
        | some sampled =>
          rw [hs] at h4
          have h5 : gcsGo net anchors rest
              (dinsert cur node.name [sampled])
              (dinsert result node.name sampled) (k + 1) = some res := h4
          refine hrest sampled ?_ h5 nv hnv
          have hEc : alookup E node.name = none := by rw [← hcc, hcl]
          obtain ⟨p, hp⟩ := sample_mem hs
          obtain ⟨tn, htn, hposs⟩ := trace_keys hn hwf htr (sampled, p) hp
          unfold EvidenceRespecting
          rw [hEc]
          exact ⟨tn, htn, hposs⟩

theorem gcnGo_respects (net : BayesianNetwork)
    (hn : (net.nodes_in_sampling_order.map
      (fun nd => casefold nd.name)).Nodup)
    (hwf : NetCptOK net) (E : EvSets) (anchors : ℕ → Prob)
    (targets : List String) :
    ∀ (result : List (String × Token)) (k : ℕ)
      (res : List (String × Token)),
      (∀ nv ∈ result, EvidenceRespecting net E nv) →
      gcnGo net E anchors targets result k = .ok res →
      ∀ nv ∈ res, EvidenceRespecting net E nv := by
  induction targets with
  | nil =>
    intro result k res hres h nv hnv
    have h2 : Except.ok (ε := Err) result = .ok res := h
    injection h2 with h2
    rw [← h2] at hnv
    exact hres nv hnv
  | cons t rest ih =>
    intro result k res hres h nv hnv
    have h2 : (match net.trace t (evOf E) with
        | none => Except.error Err.keyError
        | some dist =>
          match gcnDist t dist (alookup E t) with
          | .error e => .error e
          | .ok d =>
            if d.isEmpty then .error (.restrictiveEmptyDist t)
            else
              match sample_value_from_distribution d (anchors k) with
              | none => .error .keyError
              | some v =>
                gcnGo net E anchors rest (dinsert result t v) (k + 1)) =
        .ok res := h
    cases htr : net.trace t (evOf E) with
    | none => rw [htr] at h2; cases h2
    | some dist =>
      rw [htr] at h2
      have h3 : (match gcnDist t dist (alookup E t) with
          | .error e => (.error e : Except Err (List (String × Token)))
          | .ok d =>
            if d.isEmpty then .error (.restrictiveEmptyDist t)
            else
              match sample_value_from_distribution d (anchors k) with
              | none => .error .keyError
              | some v =>
                gcnGo net E anchors rest (dinsert result t v) (k + 1)) =
          .ok res := h2
      cases hgd : gcnDist t dist (alookup E t) with
      | error e => rw [hgd] at h3; cases h3
      | ok d =>
        rw [hgd] at h3
        have h4 : (if d.isEmpty then
              (.error (.restrictiveEmptyDist t) :
                Except Err (List (String × Token)))
            else
              match sample_value_from_distribution d (anchors k) with
              | none => .error .keyError
              | some v =>
                gcnGo net E anchors rest (dinsert result t v) (k + 1)) =
            .ok res := h3
        by_cases hde : d.isEmpty
        · rw [if_pos hde] at h4; cases h4
        · rw [if_neg hde] at h4
          have h5 : (match sample_value_from_distribution d (anchors k) with
              | none => (.error .keyError :
                  Except Err (List (String × Token)))
              | some v =>
                gcnGo net E anchors rest (dinsert result t v) (k + 1)) =
              .ok res := h4
          cases hs : sample_value_from_distribution d (anchors k) with
          | none => rw [hs] at h5; cases h5
          | some v =>
            rw [hs] at h5
            have h6 : gcnGo net E anchors rest (dinsert result t v)
                (k + 1) = .ok res := h5
            refine ih (dinsert result t v) (k + 1) res ?_ h6 nv hnv
            intro nv2 hnv2
            rcases mem_dinsert hnv2 with ⟨hold, _⟩ | hnew
            · exact hres nv2 hold
            · rw [hnew]
              obtain ⟨p, hp⟩ := sample_mem hs
              unfold EvidenceRespecting
              cases hal : alookup E t with
              | some allowed =>
                rw [hal] at hgd
                exact gcnDist_keys_some hgd (v, p) hp
              | none =>
                rw [hal] at hgd
                have hdd : d = dist := by
                  unfold gcnDist at hgd
                  injection hgd with hgd
                  exact hgd.symm
                rw [hdd] at hp
                obtain ⟨tn, htn, hposs⟩ := trace_keys hn hwf htr (v, p) hp
                exact ⟨tn, htn, hposs⟩

/-- C4: constraint reachability.  Over a network satisfying the data-model
    invariants (unique casefolded node names; CPT leaf keys drawn from the
    node's possible values), every entry of a successful full sample
    (`generate_consistent_sample`) and of a successful targeted sample
    (`generate_certain_nodes`) respects the evidence: a node constrained in
    the evidence map receives a member of its allowed set, an unconstrained
    node a member of its own possible values. -/
theorem c4_constraint_reachability (net : BayesianNetwork)
    (hn : (net.nodes_in_sampling_order.map
      (fun nd => casefold nd.name)).Nodup)
    (hwf : NetCptOK net) :
    (∀ (E : EvSets) (anchors : ℕ → Prob) (result : List (String × Token)),
      net.generate_consistent_sample E anchors = some result →
      ∀ nv ∈ result, EvidenceRespecting net E nv) ∧
    (∀ (E : EvSets) (targets : List String) (anchors : ℕ → Prob)
        (result : List (String × Token)),
      net.generate_certain_nodes E targets anchors = .ok result →
      ∀ nv ∈ result, EvidenceRespecting net E nv) := by
  constructor
  · intro E anchors result h
    have hplain : (net.nodes_in_sampling_order.map
        (fun nd => nd.name)).Nodup := by
      refine List.Nodup.of_map casefold ?_
      rw [List.map_map]
      exact hn
    exact gcsGo_respects net hn hwf E anchors net.nodes_in_sampling_order
      E [] 0 result hplain (fun _ _ => rfl) (by simp) h
  · intro E targets anchors result h
    exact gcnGo_respects net hn hwf E anchors targets [] 0 result
      (by simp) h

/-- C4 (witness): the theorem applied to the one-node network with empty
    evidence; the sampled entry `("m", "v1")` respects the (absent)
    constraints via membership in the node's possible values. -/
theorem c4_witness : EvidenceRespecting netM [] ("m", "v1") :=
  (c4_constraint_reachability netM (by decide)
      (fun nd hnd => by
        have hh : nd = nodeM := by simpa [netM] using hnd
        rw [hh]
        exact CptKeysOK.probs [("v1", 1), ("v2", 0)] (by decide))).1
    [] anchors0 [("m", "v1")] (by decide) ("m", "v1") (by decide)

/-! ## C9 (amended direction): without empty user collections, the compiled
evidence sets are non-empty -/

theorem add_tok_ne_nil (acc : List Token) (t : Token) : add_tok acc t ≠ [] := by
  unfold add_tok
  by_cases hc : acc.contains t
  · rw [if_pos hc]
    intro he
    rw [he] at hc
    simp at hc
  · rw [if_neg hc]
    simp

theorem foldl_guard_ne_nil (f : String → Bool) (l : List (String × Token)) :
    ∀ acc : List Token, acc ≠ [] →
      l.foldl (fun acc2 p => if f p.1 then add_tok acc2 p.2 else acc2)
        acc ≠ [] := by
  induction l with
  | nil => intro acc h; exact h
  | cons p rest ih =>
    intro acc h
    simp only [List.foldl_cons]
    by_cases hf : f p.1
    · rw [if_pos hf]
      exact ih _ (add_tok_ne_nil _ _)
    · rw [if_neg hf]
      exact ih _ h

theorem foldl_any_ne_nil (f : String → Bool) (l : List (String × Token))
    (hany : l.any (fun p => f p.1) = true) (acc : List Token) :
    l.foldl (fun acc2 p => if f p.1 then add_tok acc2 p.2 else acc2)
      acc ≠ [] := by
  induction l generalizing acc with
  | nil => simp at hany
  | cons p rest ih =>
    simp only [List.foldl_cons]
    by_cases hf : f p.1
    · rw [if_pos hf]
      exact foldl_guard_ne_nil f rest _ (add_tok_ne_nil _ _)
    · rw [if_neg hf]
      have hr : rest.any (fun p => f p.1) = true := by
        simp only [List.any_cons, hf, Bool.false_or] at hany
        exact hany
      exact ih hr acc

theorem processDirectCand_ne_nil {pv : List (String × Token)} {cand : Cand}
    {acc r : List Token} (h : processDirectCand pv cand acc = .ok r) :
    r ≠ [] := by
  cases cand with
  | fn f =>
    have h2 : (if pv.any (fun p => f p.1) then
        Except.ok (pv.foldl
          (fun acc2 p => if f p.1 then add_tok acc2 p.2 else acc2) acc)
      else (Except.error Err.invalidConstraints :
        Except Err (List Token))) = .ok r := h
    by_cases ha : pv.any (fun p => f p.1)
    · rw [if_pos ha] at h2
      injection h2 with h2
      rw [← h2]
      exact foldl_any_ne_nil f pv ha acc
    · rw [if_neg ha] at h2
      cases h2
  | str s =>
    have h2 : (match pvGet pv (casefold s) with
      | none => (.error .invalidConstraints : Except Err (List Token))
      | some tok => .ok (add_tok acc tok)) = .ok r := h
    cases hp : pvGet pv (casefold s) with
    | none => rw [hp] at h2; cases h2
    | some tok =>
      rw [hp] at h2
      injection h2 with h2
      rw [← h2]
      exact add_tok_ne_nil acc tok

theorem ok_of_empty_guard {X r : List Token} {e : Err}
    (h : (if X.isEmpty then (.error e : Except Err (List Token))
      else .ok X) = .ok r) : r ≠ [] := by
  by_cases hx : X.isEmpty
  · rw [if_pos hx] at h
    cases h
  · rw [if_neg hx] at h
    injection h with h
    rw [← h]
    intro hc
    rw [hc] at hx
    simp at hx

theorem processNestedCand_ne_nil {ctx : ValueCtx}
    {pv : List (String × Token)} {nk : List String} {cand : Cand}
    {acc r : List Token} (h : processNestedCand ctx pv nk cand acc = .ok r) :
    r ≠ [] :=
  ok_of_empty_guard h

theorem foldlM_last_ne_nil (step : List Token → Cand → Except Err (List Token))
    (hstep : ∀ acc cand r, step acc cand = .ok r → r ≠ []) :
    ∀ (cands : List Cand) (init res : List Token), cands ≠ [] →
      List.foldlM step init cands = .ok res → res ≠ [] := by
  intro cands
  induction cands with
  | nil => intro init res hne _; exact absurd rfl hne
  | cons c rest ih =>
    intro init res _ h
    rw [List.foldlM_cons] at h
    cases hs : step init c with
    | error e =>
      rw [hs] at h
      have h2 : (Except.error e : Except Err (List Token)) = .ok res := h
      cases h2
    | ok mid =>
      rw [hs] at h
      have h2 : List.foldlM step mid rest = .ok res := h
      cases rest with
      | nil =>
        have h3 : (Except.ok mid : Except Err (List Token)) = .ok res := h2
        injection h3 with h3
        rw [← h3]
        exact hstep init c mid hs
      | cons c2 r2 => exact ih mid res (by simp) h2

theorem after_resolve_ne_nil {net : BayesianNetwork} {ctx : ValueCtx}
    {key1 : String} {pv : List (String × Token)} {nk : List String}
    {cands : List Cand} {k : String} {toks : List Token}
    (hc : cands ≠ [])
    (h : process_condition_resolved net ctx cands key1 pv nk =
      .ok (k, toks)) : toks ≠ [] := by
  unfold process_condition_resolved at h
  cases hnb : net.nodes_by_name key1 with
  | none =>
    rw [hnb] at h
    cases h
  | some nd =>
    rw [hnb] at h
    have h2 : (match List.foldlM (fun acc cand =>
        if nk.isEmpty then processDirectCand pv cand acc
        else processNestedCand ctx pv (nk.map (fun s => casefold s))
          cand acc) ([] : List Token) cands with
      | .error e => (.error e : Except Err (String × List Token))
      | .ok toks2 => .ok (nd.name, toks2)) = .ok (k, toks) := h
    cases hf : List.foldlM (fun acc cand =>
        if nk.isEmpty then processDirectCand pv cand acc
        else processNestedCand ctx pv (nk.map (fun s => casefold s))
          cand acc) ([] : List Token) cands with
    | error e =>
      rw [hf] at h2
      cases h2
    | ok toks0 =>
      rw [hf] at h2
      injection h2 with h2
      have ht : toks0 = toks := congrArg Prod.snd h2
      rw [← ht]
      refine foldlM_last_ne_nil _ ?_ cands [] toks0 hc hf
      intro acc cand r hr
      by_cases hni : nk.isEmpty
      · rw [if_pos hni] at hr
        exact processDirectCand_ne_nil hr
      · rw [if_neg hni] at hr
        exact processNestedCand_ne_nil hr

theorem process_condition_ne_nil {net : BayesianNetwork} {ctx : ValueCtx}
    {key : String} {cands : List Cand} {k : String} {toks : List Token}
    (hc : cands ≠ [])
    (h : process_condition net ctx key cands = .ok (k, toks)) : toks ≠ [] := by
  unfold process_condition at h
  cases hlp : lookup_possibilities net ctx key with
  | some pv =>
    rw [hlp] at h
    have h2 : process_condition_resolved net ctx cands key pv [] =
      .ok (k, toks) := h
    exact after_resolve_ne_nil hc h2
  | none =>
    rw [hlp] at h
    cases hlr : lookup_root_possibilities net ctx
        (key.splitOn ".").length key [] with
    | none =>
      rw [hlr] at h
      have h2 : (Except.error Err.invalidNode :
          Except Err (String × List Token)) = .ok (k, toks) := h
      cases h2
    | some r =>
      rw [hlr] at h
      have h2 : process_condition_resolved net ctx cands r.1 r.2.1 r.2.2 =
        .ok (k, toks) := h
      exact after_resolve_ne_nil hc h2

theorem tupilize_ne_nil_of_flatten :
    ∀ (fuel : ℕ) (pk : String) (items : List (String × UserVal)),
      (∀ kv ∈ items, kv.2.NoEmptyColl) →
      ∀ kv ∈ flatten_conditions fuel pk items, kv.2.tupilize ≠ [] := by
  intro fuel
  induction fuel with
  | zero =>
    intro pk items _ kv hkv
    simp [flatten_conditions] at hkv
  | succ fuel ih =>
    intro pk items hne kv hkv
    unfold flatten_conditions at hkv
    rw [List.mem_flatten] at hkv
    obtain ⟨l, hl, hkvl⟩ := hkv
    rw [List.mem_map] at hl
    obtain ⟨kv0, hkv0, hleq⟩ := hl
    have hne0 := hne kv0 hkv0
    cases hv : kv0.2 with
    | dict sub =>
      rw [hv] at hleq
      have hl2 : flatten_conditions fuel
          (if pk = "" then kv0.1 else pk ++ "." ++ kv0.1) sub = l := hleq
      rw [hv] at hne0
      cases hne0 with
      | dict _ hsub =>
        rw [← hl2] at hkvl
        exact ih _ sub hsub kv hkvl
    | scalar s =>
      rw [hv] at hleq
      have hl2 : [(casefold
          (if pk = "" then kv0.1 else pk ++ "." ++ kv0.1),
          FlatVal.one s)] = l := hleq
      rw [← hl2] at hkvl
      have hk : kv = (casefold
          (if pk = "" then kv0.1 else pk ++ "." ++ kv0.1),
          FlatVal.one s) := by simpa using hkvl
      rw [hk]
      simp [FlatVal.tupilize]
    | coll lst =>
      rw [hv] at hleq
      have hl2 : [(casefold
          (if pk = "" then kv0.1 else pk ++ "." ++ kv0.1),
          FlatVal.many lst)] = l := hleq
      rw [← hl2] at hkvl
      have hk : kv = (casefold
          (if pk = "" then kv0.1 else pk ++ "." ++ kv0.1),
          FlatVal.many lst) := by simpa using hkvl
      rw [hv] at hne0
      cases hne0 with
      | coll _ hlst =>
        rw [hk]
        cases lst with
        | nil => exact absurd rfl hlst
        | cons a as => simp [FlatVal.tupilize]
    | pred f =>
      rw [hv] at hleq
      have hl2 : [(casefold
          (if pk = "" then kv0.1 else pk ++ "." ++ kv0.1),
          FlatVal.pf f)] = l := hleq
      rw [← hl2] at hkvl
      have hk : kv = (casefold
          (if pk = "" then kv0.1 else pk ++ "." ++ kv0.1),
          FlatVal.pf f) := by simpa using hkvl
      rw [hk]
      simp [FlatVal.tupilize]

theorem tupilize_ne_nil_of_noEmpty {v : UserVal} (hv : v.NoEmptyColl) :
    ∀ kv ∈ flatten_conditions 1 "" [("k", v)], kv.2.tupilize ≠ [] :=
  tupilize_ne_nil_of_flatten 1 "" [("k", v)]
    (fun kv hkv => by
      have hk : kv = ("k", v) := by simpa using hkv
      rw [hk]
      exact hv)

theorem build_fold_ne_nil (net : BayesianNetwork) (ctx : ValueCtx) :
    ∀ (flat : List (String × FlatVal)) (acc ev : EvSets),
      (∀ kv ∈ flat, kv.2.tupilize ≠ []) →
      (∀ kv ∈ acc, kv.2 ≠ []) →
      List.foldlM (fun acc2 kv => do
          let r ← process_condition net ctx kv.1 kv.2.tupilize
          pure (dinsert acc2 r.1 r.2)) acc flat = .ok ev →
      ∀ kv ∈ ev, kv.2 ≠ [] := by
  intro flat
  induction flat with
  | nil =>
    intro acc ev _ hacc h kv hkv
    have h2 : (Except.ok acc : Except Err EvSets) = .ok ev := h
    injection h2 with h2
    rw [← h2] at hkv
    exact hacc kv hkv
  | cons fk rest ih =>
    intro acc ev hflat hacc h kv hkv
    simp only [List.foldlM_cons] at h
    cases hp : process_condition net ctx fk.1 fk.2.tupilize with
    | error e =>
      rw [hp] at h
      have h2 : (Except.error e : Except Err EvSets) = .ok ev := h
      cases h2
    | ok r =>
      obtain ⟨rk, rt⟩ := r
      rw [hp] at h
      have h2 : List.foldlM (fun acc2 kv => do
          let r2 ← process_condition net ctx kv.1 kv.2.tupilize
          pure (dinsert acc2 r2.1 r2.2)) (dinsert acc rk rt) rest =
          .ok ev := h
      have hrt : rt ≠ [] :=
        process_condition_ne_nil (hflat fk (by simp)) hp
      refine ih (dinsert acc rk rt) ev
        (fun kv2 hkv2 => hflat kv2 (List.mem_cons_of_mem _ hkv2)) ?_ h2 kv hkv
      intro kv2 hkv2
      rcases mem_dinsert hkv2 with ⟨hold, _⟩ | hnew
      · exact hacc kv2 hold
      · rw [hnew]
        exact hrt

theorem build_evidence_validate_sub {net : BayesianNetwork} {strict : Bool}
    {ev res : EvSets} (h : net.build_evidence_validate strict ev = .ok res) :
    ∀ kv ∈ res, kv ∈ ev := by
  unfold BayesianNetwork.build_evidence_validate at h
  cases hv : net.validate_evidence ev with
  | ok u =>
    rw [hv] at h
    have h2 : (Except.ok ev : Except Err EvSets) = .ok res := h
    injection h2 with h2
    intro kv hkv
    rw [← h2] at hkv
    exact hkv
  | error e =>
    rw [hv] at h
    have h2 : (if e.isRestrictive then
        (if strict then (.error e : Except Err EvSets)
          else .ok (ev.drop 1))
      else .error e) = .ok res := h
    by_cases hr : e.isRestrictive
    · rw [if_pos hr] at h2
      by_cases hs : strict
      · rw [if_pos hs] at h2
        cases h2
      · rw [if_neg hs] at h2
        injection h2 with h2
        intro kv hkv
        rw [← h2] at hkv
        exact (List.drop_sublist 1 ev).subset hkv
    · rw [if_neg hr] at h2
      cases h2

/-- C9 (amended): the unconditional claim fails (an empty tuple constraint
    compiles to an empty evidence set, see the counterexample); under the
    amendment that no user condition value is an empty collection, every
    entry of a successfully compiled evidence map is a non-empty set of
    value-index tokens. -/
theorem c9_amended (net : BayesianNetwork) (ctx : ValueCtx) (fuel : ℕ)
    (conditions : List (String × UserVal)) (strict : Bool) (ev : EvSets)
    (hne : ∀ kv ∈ conditions, kv.2.NoEmptyColl)
    (h : net.build_evidence ctx fuel conditions strict = .ok ev) :
    ∀ kv ∈ ev, kv.2 ≠ [] := by
  have h2 : (List.foldlM (fun acc kv => do
      let r ← process_condition net ctx kv.1 kv.2.tupilize
      pure (dinsert acc r.1 r.2)) ([] : EvSets)
        (flatten_conditions fuel "" conditions) >>= fun ev0 =>
      net.build_evidence_validate strict ev0) = .ok ev := h
  cases hf : List.foldlM (fun acc kv => do
      let r ← process_condition net ctx kv.1 kv.2.tupilize
      pure (dinsert acc r.1 r.2)) ([] : EvSets)
        (flatten_conditions fuel "" conditions) with
  | error e =>
    rw [hf] at h2
    have h3 : (Except.error e : Except Err EvSets) = .ok ev := h2
    cases h3
  | ok ev0 =>
    rw [hf] at h2
    have h3 : net.build_evidence_validate strict ev0 = .ok ev := h2
    have hev0 : ∀ kv ∈ ev0, kv.2 ≠ [] :=
      build_fold_ne_nil net ctx (flatten_conditions fuel "" conditions)
        [] ev0 (tupilize_ne_nil_of_flatten fuel "" conditions hne)
        (by simp) hf
    intro kv hkv
    exact hev0 kv (build_evidence_validate_sub h3 kv hkv)

/-- C9 (witness): the amended theorem applied to a concrete scalar
    constraint on the one-node network. -/
theorem c9_witness : (["x"] : List Token) ≠ [] :=
  c9_amended netN ctx0 1 [("n", UserVal.scalar "x")] true [("n", ["x"])]
    (fun kv hkv => by
      have hk : kv = ("n", UserVal.scalar "x") := by simpa using hkv
      rw [hk]
      exact UserVal.NoEmptyColl.scalar "x")
    (by decide) ("n", ["x"]) (by decide)

end FPGen
